import Mathlib

/-!
# Customs queue simulation (`customs.c`)

A shallow embedding of `customs.c`: groups of travellers wait in singly linked
queues, one queue per customs agent, and `calc_time` replays every queue to
compute payroll and waiting statistics.

Modelling choices

* `int` values are integers (`Int`) in the range of a 32-bit `int`.  C's `/`
  and `%` truncate toward zero, so they are `Int.tdiv` and `Int.tmod`.
  `proc_time_checked` and `calc_time_checked` are the functions of the program:
  every arithmetic result is checked against the range of `int`, and a result
  outside it (signed overflow) is a fault.  `proc_time` and `calc_time` are
  the same computations on mathematical integers, used to name the values; a
  checked run that returns agrees with them (`calc_time_checked_inv`), and
  they say nothing about the program where an operation overflows.
* Group pointers are `Option Nat`: `none` is `NULL`, `some a` is the address
  `a` of a cell of the heap.  The heap is a list of cells; a cell is
  `some g` while it is allocated and `none` once freed.
* Dereferencing or freeing a pointer that is `NULL`, dangling or out of range,
  indexing the agent array out of bounds, dividing by zero and (in the checked
  functions) signed overflow are undefined behaviour in C; the model reports
  them as a `Fault`.
* `rand()` is a function from the number of the call to the value returned;
  `malloc` puts a new group in a new cell at the end of the heap.
* The `while` loop of `calc_time` takes a fuel argument, an upper bound on the
  number of iterations it may run.
-/

namespace Customs

/-! ## Data model -/

/-- Ways in which a run leaves defined behaviour. -/
inductive Fault where
  | badPointer
  | divByZero
  | outOfFuel
  | overflow
deriving DecidableEq, Repr

deriving instance DecidableEq for Except

/-- The struct `group_struct`: one node of an agent's linked list. -/
structure group where
  adults : Int
  children : Int
  usa : Int
  next : Option Nat
  prev : Option Nat
deriving DecidableEq, Repr

/-- The struct `agent_struct`: the head of a queue. -/
structure agent where
  timecard : Int
  avail : Int
  head : Option Nat
  tail : Option Nat
deriving DecidableEq, Repr

/-- The struct `stats_struct`: the report of `calc_time`. -/
structure stats where
  total_time : Int
  total_payroll : Int
  avg_wait_time : Int
  max_wait_time : Int
deriving DecidableEq, Repr

/-- The memory holding the groups: cell `a` is `some g` while allocated. -/
abbrev Heap := List (Option group)

/-- Reading `*p` for a group pointer `p`. -/
def load (h : Heap) (p : Option Nat) : Except Fault group :=
  match p with
  | none => .error .badPointer
  | some a =>
    match h[a]? with
    | some (some g) => .ok g
    | _ => .error .badPointer

/-- Writing `*p = g` for a group pointer `p`. -/
def store (h : Heap) (p : Option Nat) (g : group) : Except Fault Heap :=
  match p with
  | none => .error .badPointer
  | some a =>
    match h[a]? with
    | some (some _) => .ok (h.set a (some g))
    | _ => .error .badPointer

/-- The call `free(p)`: a no-op on `NULL`, otherwise the cell is released. -/
def free (h : Heap) (p : Option Nat) : Except Fault Heap :=
  match p with
  | none => .ok h
  | some a =>
    match h[a]? with
    | some (some _) => .ok (h.set a none)
    | _ => .error .badPointer

/-- Reading `agents[i]`. -/
def agent_at (agents : List agent) (i : Nat) : Except Fault agent :=
  match agents[i]? with
  | some agt => .ok agt
  | none => .error .badPointer

/-! ## The functions of `customs.c` -/

/-- The function `create_group`, given the four values `rand()` returns, in
the order of the calls. -/
def create_group (r1 r2 r3 r4 : Int) : group :=
  let adults := 1 + Int.tmod r1 3
  let children := (Int.tmod r2 4) + (Int.tmod r3 4) - 2
  let children := if children < 0 then 0 else children
  let usa : Int := if Int.tmod r4 5 = 0 then 0 else 1
  { adults := adults, children := children, usa := usa, next := none, prev := none }

/-- The function `create_agent`. -/
def create_agent : agent :=
  { timecard := 0, avail := 0, head := none, tail := none }

/-- The value `proc_time` computes for the group its argument points to, on
mathematical integers: what the function returns as long as no `int`
operation overflows (`proc_time_checked` is the function with that check). -/
def proc_time (grp : group) : Int :=
  let result := grp.adults
  let result := if grp.usa = 0 then result * 2 else result
  result + Int.tdiv (1 + grp.children) 2

/-- The function `enqueue`. -/
def enqueue (h : Heap) (agt : agent) (grp : Option Nat) : Except Fault (Heap × agent) :=
  match agt.head with
  | none => .ok (h, { agt with head := grp, tail := grp })
  | some _ => do
    let t ← load h agt.tail
    let h1 ← store h agt.tail { t with next := grp }
    let t1 ← load h1 agt.tail
    .ok (h1, { agt with tail := t1.next })

/-- The function `dequeue`: the returned pointer and the updated agent. -/
def dequeue (h : Heap) (agt : agent) : Except Fault (Option Nat × agent) :=
  match agt.head with
  | none => .ok (none, agt)
  | some a => do
    let temp := some a
    let hd ← load h agt.head
    .ok (temp, { agt with head := hd.next })

/-- The variables of `calc_time` that live across its loops. -/
structure CalcState where
  heap : Heap
  agents : List agent
  report : stats
  totalNumberGroupsProcessed : Int
  totalWaitTime : Int
deriving DecidableEq, Repr

/-- One iteration of the `while` loop of `calc_time` for agent `i`, on
mathematical integers (`while_body_checked` checks the range of `int`). -/
def while_body (i : Nat) (s : CalcState) (currTime : Int) : Except Fault (CalcState × Int) := do
  let total := s.totalNumberGroupsProcessed + 1
  let report :=
    if currTime > s.report.max_wait_time then { s.report with max_wait_time := currTime }
    else s.report
  let totalWait := s.totalWaitTime + currTime
  let agt ← agent_at s.agents i
  let hd ← load s.heap agt.head
  let currTime := currTime + proc_time hd
  let (temp, agt) ← dequeue s.heap agt
  let heap ← free s.heap temp
  .ok ({ heap := heap, agents := s.agents.set i agt, report := report,
         totalNumberGroupsProcessed := total, totalWaitTime := totalWait }, currTime)

/-- The loop `while (agents[i]->head != NULL)` of `calc_time`. -/
def while_loop (i : Nat) : Nat → CalcState → Int → Except Fault (CalcState × Int)
  | 0, s, currTime =>
    match agent_at s.agents i with
    | .error e => .error e
    | .ok agt =>
      match agt.head with
      | none => .ok (s, currTime)
      | some _ => .error .outOfFuel
  | fuel + 1, s, currTime =>
    match agent_at s.agents i with
    | .error e => .error e
    | .ok agt =>
      match agt.head with
      | none => .ok (s, currTime)
      | some _ =>
        match while_body i s currTime with
        | .error e => .error e
        | .ok (s1, currTime1) => while_loop i fuel s1 currTime1

/-- The update of `report->total_payroll` for an agent who worked `currTime`
minutes (the statements after `int hours = currTime/60`). -/
def add_pay (total_payroll currTime : Int) : Int :=
  let hours := Int.tdiv currTime 60
  if hours > 8 then (total_payroll + 30 * (hours - 8)) + 20 * 8
  else total_payroll + 20 * hours

/-- The body of the `for` loop of `calc_time` for agent `i`, on mathematical
integers (`for_body_checked` checks the range of `int`). -/
def for_body (fuel : Nat) (i : Nat) (s : CalcState) : Except Fault CalcState := do
  let (s, currTime) ← while_loop i fuel s 0
  let report := { s.report with total_time := s.report.total_time + currTime }
  let report := { report with total_payroll := add_pay report.total_payroll currTime }
  .ok { s with report := report }

/-- The loop `for (i = 0; i < num_agents; i++)`, with `k` iterations left. -/
def for_loop (fuel : Nat) : Nat → Nat → CalcState → Except Fault CalcState
  | 0, _, s => .ok s
  | k + 1, i, s =>
    match for_body fuel i s with
    | .error e => .error e
    | .ok s1 => for_loop fuel k (i + 1) s1

/-- The function `calc_time` on mathematical integers: the report, and the heap
and agents it leaves, as long as no `int` operation overflows
(`calc_time_checked` is the function with that check). -/
def calc_time (fuel : Nat) (num_agents : Int) (heap : Heap) (agents : List agent) :
    Except Fault (stats × Heap × List agent) := do
  let report : stats :=
    { max_wait_time := 0, total_payroll := 0, total_time := 0, avg_wait_time := 0 }
  let s ← for_loop fuel num_agents.toNat 0
    { heap := heap, agents := agents, report := report,
      totalNumberGroupsProcessed := 0, totalWaitTime := 0 }
  if s.totalNumberGroupsProcessed = 0 then .error .divByZero
  else
    .ok ({ s.report with
            avg_wait_time := Int.tdiv s.totalWaitTime s.totalNumberGroupsProcessed },
         s.heap, s.agents)

/-! ## Queues read as lists

The relation between the linked lists in memory and the lists the statements
below talk about. -/

/-- The cells `q` (address and contents, front first) are exactly the ones the
`next` fields lead through from pointer `p`, the last one ending in `NULL`. -/
def chain (h : Heap) : Option Nat → List (Nat × group) → Prop
  | p, [] => p = none
  | p, c :: rest => p = some c.1 ∧ h[c.1]? = some (some c.2) ∧ chain h c.2.next rest

instance chain_decidable (h : Heap) : ∀ p q, Decidable (chain h p q)
  | p, [] => by unfold chain; infer_instance
  | p, c :: rest =>
    have := chain_decidable h c.2.next rest
    by unfold chain; infer_instance

/-- Agent by agent, `qs` lists the cells of the agent's queue. -/
def lines (h : Heap) : List agent → List (List (Nat × group)) → Prop
  | [], [] => True
  | agt :: agents, q :: qs => chain h agt.head q ∧ lines h agents qs
  | _, _ => False

instance lines_decidable (h : Heap) : ∀ agents qs, Decidable (lines h agents qs)
  | [], [] => by unfold lines; infer_instance
  | agt :: agents, q :: qs =>
    have := lines_decidable h agents qs
    by unfold lines; infer_instance
  | [], _ :: _ => by unfold lines; infer_instance
  | _ :: _, [] => by unfold lines; infer_instance

/-- The addresses of the cells of a queue. -/
def addrs (q : List (Nat × group)) : List Nat := q.map Prod.fst

/-- The groups of a queue, front first. -/
def groups (q : List (Nat × group)) : List group := q.map Prod.snd

/-- The queues of an agent array are separate: `qs` lists them and no cell
occurs twice, neither in one queue nor in two. -/
def separate_lines (h : Heap) (agents : List agent) (qs : List (List (Nat × group))) : Prop :=
  lines h agents qs ∧ (addrs qs.flatten).Nodup

instance separate_lines_decidable (h : Heap) (agents : List agent)
    (qs : List (List (Nat × group))) : Decidable (separate_lines h agents qs) := by
  unfold separate_lines
  infer_instance

/-- The data model's constraint on a group: at least one adult, no negative
number of children. -/
abbrev valid_group (g : group) : Prop := 1 ≤ g.adults ∧ 0 ≤ g.children

/-- The heap after the cells at the given addresses have been freed. -/
def free_all (h : Heap) : List Nat → Heap
  | [] => h
  | a :: rest => free_all (h.set a none) rest

/-- An agent whose queue has been served to the end: `head` is `NULL`. -/
def served (agt : agent) : agent := { agt with head := none }

/-- The clock readings at which the groups of a queue start being served,
when the first of them starts at `cur`. -/
def waits_from (cur : Int) : List group → List Int
  | [] => []
  | g :: gs => cur :: waits_from (cur + proc_time g) gs

/-- The running maximum of `calc_time`: `m` unless `w` exceeds it. -/
def max_step (m w : Int) : Int := if w > m then w else m

/-! ## Sequences of queue operations -/

/-- A call of `enqueue` with the group at address `p`, or a call of `dequeue`. -/
inductive QueueOp where
  | enq (p : Nat)
  | deq
deriving DecidableEq, Repr

/-- Runs the calls `ops` on one agent, in order, and collects what the calls
of `dequeue` return. -/
def run_ops : List QueueOp → Heap → agent → Except Fault (List (Option Nat) × Heap × agent)
  | [], h, agt => .ok ([], h, agt)
  | .enq p :: ops, h, agt =>
    match enqueue h agt (some p) with
    | .error e => .error e
    | .ok (h1, agt1) => run_ops ops h1 agt1
  | .deq :: ops, h, agt =>
    match dequeue h agt with
    | .error e => .error e
    | .ok (r, agt1) =>
      match run_ops ops h agt1 with
      | .error e => .error e
      | .ok (rs, h2, agt2) => .ok (r :: rs, h2, agt2)

/-- The reference FIFO list of the specification: `enq` appends at the tail,
`deq` removes and returns the head, or signals empty with `none`.  The result
is what the `deq` calls return and the list left at the end. -/
def fifo_run : List QueueOp → List Nat → List (Option Nat) × List Nat
  | [], q => ([], q)
  | .enq p :: ops, q => fifo_run ops (q ++ [p])
  | .deq :: ops, [] => (none :: (fifo_run ops []).1, (fifo_run ops []).2)
  | .deq :: ops, x :: q => (some x :: (fifo_run ops q).1, (fifo_run ops q).2)

/-- The addresses the calls of `enqueue` in `ops` are given. -/
def enq_addrs : List QueueOp → List Nat
  | [] => []
  | .enq p :: ops => p :: enq_addrs ops
  | .deq :: ops => enq_addrs ops

/-- A fresh group, as `create_group` returns it: allocated, with `next` being
`NULL`. -/
def fresh (h : Heap) (p : Nat) : Prop :=
  match h[p]? with
  | some (some g) => g.next = none
  | _ => False

instance fresh_decidable (h : Heap) (p : Nat) : Decidable (fresh h p) := by
  unfold fresh
  split <;> infer_instance

/-! ## The quantities of the specification -/

/-- The base of the processing time: one minute per adult, doubled for a
foreign group (`usa` false, that is zero). -/
def base_time (g : group) : Int := if g.usa = 0 then 2 * g.adults else g.adults

/-- Wait time of the group at position `i` of a queue: the sum of the
processing times of the groups ahead of it. -/
def wait_time (q : List group) (i : Nat) : Int := ((q.take i).map proc_time).sum

/-- The wait times of the groups of a queue, by position. -/
def wait_times (q : List group) : List Int := (List.range q.length).map (wait_time q)

/-- The wait times of all groups of all queues. -/
def all_waits (qs : List (List group)) : List Int := (qs.map wait_times).flatten

/-- The sum, over every agent and every position in the agent's queue, of the
wait time of the group at that position. -/
def total_wait (qs : List (List group)) : Int := (qs.map (fun q => (wait_times q).sum)).sum

/-- The number of groups in all queues. -/
def total_groups (qs : List (List group)) : Nat := (qs.map List.length).sum

/-- An agent's elapsed time: the sum of the processing times of its queue. -/
def elapsed (q : List group) : Int := (q.map proc_time).sum

/-- The payroll rule as the specification words it, with `hours` the floor of
`elapsed / 60`. -/
def spec_pay (e : Int) : Int :=
  let hours := Int.fdiv e 60
  if hours > 8 then 8 * 20 + (hours - 8) * 30 else hours * 20

/-! ## The setup of `main` -/

/-- The call `malloc` in `create_group`: the new group gets a cell of its own,
at the end of the heap. -/
def alloc (h : Heap) (g : group) : Heap × Option Nat := (h ++ [some g], some h.length)

/-- The group the call number `i` of `create_group` returns, when `rand n` is
the value the call number `n` of `rand()` returns. -/
def nth_group (rand : Nat → Int) (i : Nat) : group :=
  create_group (rand (4 * i)) (rand (4 * i + 1)) (rand (4 * i + 2)) (rand (4 * i + 3))

/-- The loop `for (i = 0; i < num_groups; ++i)` of `main`, with `k` rounds
left: `enqueue(agents[i % num_agents], create_group())`. -/
def setup_loop (rand : Nat → Int) (num_agents : Nat) :
    Nat → Nat → Heap → List agent → Except Fault (Heap × List agent)
  | 0, _, h, agents => .ok (h, agents)
  | k + 1, i, h, agents =>
    if num_agents = 0 then .error .divByZero
    else
      match agent_at agents (i % num_agents) with
      | .error e => .error e
      | .ok agt =>
        match enqueue (alloc h (nth_group rand i)).1 agt (alloc h (nth_group rand i)).2 with
        | .error e => .error e
        | .ok (h1, agt1) =>
          setup_loop rand num_agents k (i + 1) h1 (agents.set (i % num_agents) agt1)

/-- The two setup loops of `main`: `num_agents` agents are created, then
`num_groups` groups are created and enqueued. -/
def main_setup (rand : Nat → Int) (num_agents num_groups : Nat) :
    Except Fault (Heap × List agent) :=
  setup_loop rand num_agents num_groups 0 [] (List.replicate num_agents create_agent)

/-- The addresses of the groups that round robin gives agent `j` out of the
first `i` groups: those whose index is `j` modulo the number of agents, in
arrival order. -/
def robin (n i j : Nat) : List Nat := (List.range i).filter (fun a => a % n = j)

/-- The invariant of the setup loop after `i` rounds: the heap holds the `i`
groups created so far, each at the address of its index, and each agent's
queue holds, in arrival order, the groups round robin gives it. -/
def setup_inv (rand : Nat → Int) (n i : Nat) (h : Heap) (agents : List agent)
    (qs : List (List (Nat × group))) : Prop :=
  h.length = i ∧ agents.length = n ∧ qs.length = n
    ∧ (∀ a, a < i → ∃ g, h[a]? = some (some g)
        ∧ ({ g with next := none } : group) = nth_group rand a)
    ∧ ∀ j agt q, agents[j]? = some agt → qs[j]? = some q →
        chain h agt.head q ∧ (q ≠ [] → agt.tail = (addrs q).getLast?) ∧ addrs q = robin n i j

/-! ## `calc_time` with range-checked arithmetic -/

/-- The values a 32-bit `int` holds. -/
abbrev int_range (x : Int) : Prop := -2147483648 ≤ x ∧ x ≤ 2147483647

/-- The result of an `int` operation: the value, or a fault when it does not
fit an `int` (signed overflow). -/
def checked (x : Int) : Except Fault Int :=
  if int_range x then .ok x else .error .overflow

/-- The function `proc_time` with every arithmetic result range-checked. -/
def proc_time_checked (grp : group) : Except Fault Int := do
  let result := grp.adults
  let result ← if grp.usa = 0 then checked (result * 2) else .ok result
  let half ← checked (1 + grp.children)
  let half ← checked (Int.tdiv half 2)
  checked (result + half)

/-- One iteration of the `while` loop, range-checked. -/
def while_body_checked (i : Nat) (s : CalcState) (currTime : Int) :
    Except Fault (CalcState × Int) := do
  let total ← checked (s.totalNumberGroupsProcessed + 1)
  let report :=
    if currTime > s.report.max_wait_time then { s.report with max_wait_time := currTime }
    else s.report
  let totalWait ← checked (s.totalWaitTime + currTime)
  let agt ← agent_at s.agents i
  let hd ← load s.heap agt.head
  let time ← proc_time_checked hd
  let currTime ← checked (currTime + time)
  let (temp, agt) ← dequeue s.heap agt
  let heap ← free s.heap temp
  .ok ({ heap := heap, agents := s.agents.set i agt, report := report,
         totalNumberGroupsProcessed := total, totalWaitTime := totalWait }, currTime)

/-- The `while` loop, range-checked. -/
def while_loop_checked (i : Nat) : Nat → CalcState → Int → Except Fault (CalcState × Int)
  | 0, s, currTime =>
    match agent_at s.agents i with
    | .error e => .error e
    | .ok agt =>
      match agt.head with
      | none => .ok (s, currTime)
      | some _ => .error .outOfFuel
  | fuel + 1, s, currTime =>
    match agent_at s.agents i with
    | .error e => .error e
    | .ok agt =>
      match agt.head with
      | none => .ok (s, currTime)
      | some _ =>
        match while_body_checked i s currTime with
        | .error e => .error e
        | .ok (s1, currTime1) => while_loop_checked i fuel s1 currTime1

/-- The payroll update, range-checked. -/
def add_pay_checked (total_payroll currTime : Int) : Except Fault Int := do
  let hours ← checked (Int.tdiv currTime 60)
  if hours > 8 then do
    let over ← checked (hours - 8)
    let overtime ← checked (30 * over)
    let total_payroll ← checked (total_payroll + overtime)
    let regular ← checked (20 * 8)
    checked (total_payroll + regular)
  else do
    let regular ← checked (20 * hours)
    checked (total_payroll + regular)

/-- The body of the `for` loop, range-checked. -/
def for_body_checked (fuel : Nat) (i : Nat) (s : CalcState) : Except Fault CalcState := do
  let (s, currTime) ← while_loop_checked i fuel s 0
  let total_time ← checked (s.report.total_time + currTime)
  let report := { s.report with total_time := total_time }
  let total_payroll ← add_pay_checked report.total_payroll currTime
  let report := { report with total_payroll := total_payroll }
  .ok { s with report := report }

/-- The increment `i++` of the `for` loop, range-checked. -/
def next_index (i : Nat) : Except Fault Nat := do
  let _ ← checked ((i : Int) + 1)
  .ok (i + 1)

/-- The `for` loop, range-checked, the increment of `i` included. -/
def for_loop_checked (fuel : Nat) : Nat → Nat → CalcState → Except Fault CalcState
  | 0, _, s => .ok s
  | k + 1, i, s => do
    let s1 ← for_body_checked fuel i s
    let i1 ← next_index i
    for_loop_checked fuel k i1 s1

/-- The function `calc_time` with every arithmetic result range-checked. -/
def calc_time_checked (fuel : Nat) (num_agents : Int) (heap : Heap) (agents : List agent) :
    Except Fault (stats × Heap × List agent) := do
  let report : stats :=
    { max_wait_time := 0, total_payroll := 0, total_time := 0, avg_wait_time := 0 }
  let s ← for_loop_checked fuel num_agents.toNat 0
    { heap := heap, agents := agents, report := report,
      totalNumberGroupsProcessed := 0, totalWaitTime := 0 }
  if s.totalNumberGroupsProcessed = 0 then .error .divByZero
  else do
    let avg ← checked (Int.tdiv s.totalWaitTime s.totalNumberGroupsProcessed)
    .ok ({ s.report with avg_wait_time := avg }, s.heap, s.agents)

/-- A group as `create_group` makes it: one to three adults, at most four
children. -/
abbrev producible (g : group) : Prop :=
  1 ≤ g.adults ∧ g.adults ≤ 3 ∧ 0 ≤ g.children ∧ g.children ≤ 4

/-! ## Memory lemmas -/

theorem load_of_cell {h : Heap} {a : Nat} {g : group} (hc : h[a]? = some (some g)) :
    load h (some a) = .ok g := by
  simp [load, hc]

theorem store_of_cell {h : Heap} {a : Nat} {g0 : group} (g : group)
    (hc : h[a]? = some (some g0)) : store h (some a) g = .ok (h.set a (some g)) := by
  simp [store, hc]

theorem free_of_cell {h : Heap} {a : Nat} {g : group} (hc : h[a]? = some (some g)) :
    free h (some a) = .ok (h.set a none) := by
  simp [free, hc]

theorem cell_set_self {h : Heap} {a : Nat} {g0 : group} (v : Option group)
    (hc : h[a]? = some (some g0)) : (h.set a v)[a]? = some v := by
  have hlt : a < h.length := by
    rcases List.getElem?_eq_some.mp hc with ⟨hlt, _⟩
    exact hlt
  simp [List.getElem?_set, hlt]

theorem cell_set_other {h : Heap} {a b : Nat} (v : Option group) (hab : a ≠ b) :
    (h.set a v)[b]? = h[b]? :=
  List.getElem?_set_ne hab

/-- Writing to a cell outside a queue leaves the queue as it is. -/
theorem chain_set_of_not_mem {h : Heap} {a : Nat} (v : Option group) :
    ∀ (q : List (Nat × group)) (p : Option Nat),
      chain h p q → a ∉ addrs q → chain (h.set a v) p q
  | [], p, hch, _ => by
    unfold chain at hch ⊢
    exact hch
  | c :: rest, p, hch, hna => by
    unfold chain at hch ⊢
    have hne : a ≠ c.1 := fun e => hna (by simp [addrs, e])
    have hrest : a ∉ addrs rest := fun hm => hna (by
      simp only [addrs, List.map_cons, List.mem_cons] at hm ⊢
      exact Or.inr hm)
    exact ⟨hch.1, by rw [cell_set_other v hne]; exact hch.2.1,
      chain_set_of_not_mem v rest c.2.next hch.2.2 hrest⟩

/-- Every cell of a queue is allocated and holds the listed group. -/
theorem chain_cell {h : Heap} :
    ∀ (q : List (Nat × group)) (p : Option Nat), chain h p q →
      ∀ c ∈ q, h[c.1]? = some (some c.2)
  | [], _, _, c, hc => by simp at hc
  | d :: rest, p, hch, c, hc => by
    unfold chain at hch
    rcases List.mem_cons.mp hc with e | hm
    · rw [e]; exact hch.2.1
    · exact chain_cell rest d.2.next hch.2.2 c hm

/-- Linking a fresh cell behind the last cell of a queue appends it. -/
theorem chain_snoc {h : Heap} {a t : Nat} {ga tg : group}
    (ha : h[a]? = some (some ga)) (hnext : ga.next = none) :
    ∀ (q : List (Nat × group)) (p : Option Nat), chain h p q →
      (addrs q).getLast? = some t → h[t]? = some (some tg) →
      (addrs q).Nodup → a ∉ addrs q →
      ∃ q1, chain (h.set t (some { tg with next := some a })) p q1
        ∧ addrs q1 = addrs q ++ [a]
  | [], _, _, hl, _, _, _ => by simp [addrs] at hl
  | [c], p, hch, hl, ht, _, hna => by
    unfold chain at hch
    have htc : c.1 = t := by simpa [addrs] using hl
    have hat : t ≠ a := fun e => hna (by simp [addrs, htc, e])
    refine ⟨[(t, { tg with next := some a }), (a, ga)], ?_, by simp [addrs, htc]⟩
    unfold chain
    refine ⟨by rw [hch.1, htc], cell_set_self _ ht, ?_⟩
    unfold chain
    refine ⟨rfl, by rw [cell_set_other _ hat]; exact ha, ?_⟩
    unfold chain
    exact hnext
  | c :: d :: rest, p, hch, hl, ht, hnd, hna => by
    unfold chain at hch
    have hl1 : (addrs (d :: rest)).getLast? = some t := by
      simpa [addrs, List.getLast?_cons_cons] using hl
    have hnd1 : (addrs (d :: rest)).Nodup := by
      have := hnd
      simp only [addrs, List.map_cons, List.nodup_cons] at this ⊢
      exact this.2
    have hna1 : a ∉ addrs (d :: rest) := fun hm => hna (by
      simp only [addrs, List.map_cons, List.mem_cons] at hm ⊢
      exact Or.inr hm)
    have htmem : t ∈ addrs (d :: rest) := List.mem_of_getLast?_eq_some hl1
    have hct : t ≠ c.1 := by
      intro e
      have := hnd
      simp only [addrs, List.map_cons, List.nodup_cons] at this htmem
      exact this.1 (by rw [← e]; simpa using htmem)
    obtain ⟨q1, hq1, hadd⟩ := chain_snoc ha hnext (d :: rest) c.2.next hch.2.2 hl1 ht hnd1 hna1
    refine ⟨c :: q1, ?_, by simp [addrs] at hadd ⊢; exact hadd⟩
    unfold chain
    exact ⟨hch.1, by rw [cell_set_other _ hct]; exact hch.2.1, hq1⟩

/-! ## The queue operations -/

theorem fresh_cell {h : Heap} {p : Nat} (hf : fresh h p) :
    ∃ g, h[p]? = some (some g) ∧ g.next = none := by
  unfold fresh at hf
  split at hf
  · next g hg => exact ⟨g, hg, hf⟩
  · exact hf.elim

theorem fresh_set_other {h : Heap} {a p : Nat} (v : Option group) (hap : a ≠ p)
    (hf : fresh h p) : fresh (h.set a v) p := by
  unfold fresh at hf ⊢
  rw [cell_set_other v hap]
  exact hf

/-- The invariant of a queue under `enqueue` and `dequeue`: the cells reachable
from `head` are the reference list, and `tail` is its last cell when it is not
empty. -/
theorem run_ops_fifo_from :
    ∀ (ops : List QueueOp) (h : Heap) (agt : agent) (q : List (Nat × group)),
      chain h agt.head q →
      (q ≠ [] → agt.tail = (addrs q).getLast?) →
      (addrs q ++ enq_addrs ops).Nodup →
      (∀ p ∈ enq_addrs ops, fresh h p) →
      ∃ h1 agt1 q1, run_ops ops h agt = .ok ((fifo_run ops (addrs q)).1, h1, agt1)
        ∧ chain h1 agt1.head q1 ∧ addrs q1 = (fifo_run ops (addrs q)).2
  | [], h, agt, q, hch, _, _, _ => ⟨h, agt, q, by simp [run_ops, fifo_run], hch, by simp [fifo_run]⟩
  | .enq p :: ops, h, agt, [], hch, _, hnd, hfr => by
    unfold chain at hch
    obtain ⟨g, hg, hgn⟩ := fresh_cell (hfr p (by simp [enq_addrs]))
    have hch1 : chain h (some p) [(p, g)] := by
      unfold chain
      refine ⟨rfl, hg, ?_⟩
      unfold chain
      exact hgn
    have hnd1 : (addrs [(p, g)] ++ enq_addrs ops).Nodup := by
      simpa [addrs, enq_addrs] using hnd
    obtain ⟨h1, agt1, q1, hrun, hq1, hadd⟩ :=
      run_ops_fifo_from ops h { agt with head := some p, tail := some p } [(p, g)]
        hch1 (fun _ => by simp [addrs]) hnd1
        (fun r hr => hfr r (by simp [enq_addrs, hr]))
    refine ⟨h1, agt1, q1, ?_, hq1, ?_⟩
    · simp only [run_ops, enqueue, hch]
      simpa [addrs, fifo_run] using hrun
    · simpa [addrs, fifo_run] using hadd
  | .enq p :: ops, h, agt, c :: rest, hch, htl, hnd, hfr => by
    obtain ⟨g, hg, hgn⟩ := fresh_cell (hfr p (by simp [enq_addrs]))
    have hne : (addrs (c :: rest)) ≠ [] := by simp [addrs]
    obtain ⟨t, ht⟩ : ∃ t, (addrs (c :: rest)).getLast? = some t :=
      ⟨_, List.getLast?_eq_getLast _ hne⟩
    have htail : agt.tail = some t := by rw [htl (by simp), ht]
    have htmem : t ∈ addrs (c :: rest) := List.mem_of_getLast?_eq_some ht
    obtain ⟨ct, hct, hct1⟩ : ∃ ct ∈ c :: rest, ct.1 = t := by
      unfold addrs at htmem
      exact List.mem_map.mp htmem
    have htcell : h[t]? = some (some ct.2) := by
      rw [← hct1]
      exact chain_cell _ _ hch ct hct
    have hndq : (addrs (c :: rest)).Nodup := (List.nodup_append.mp hnd).1
    have hdisj := (List.nodup_append.mp hnd).2.2
    have hpq : p ∉ addrs (c :: rest) := fun hm =>
      hdisj hm (by simp [enq_addrs])
    obtain ⟨q1, hq1, hadd1⟩ := chain_snoc hg hgn (c :: rest) agt.head hch ht htcell hndq hpq
    have hnd1 : (addrs q1 ++ enq_addrs ops).Nodup := by
      rw [hadd1, List.append_assoc]
      simpa [enq_addrs] using hnd
    have hfr1 : ∀ r ∈ enq_addrs ops, fresh (h.set t (some { ct.2 with next := some p })) r := by
      intro r hr
      have hrt : t ≠ r := by
        intro e
        exact hdisj htmem (by simp [enq_addrs, e, hr])
      exact fresh_set_other _ hrt (hfr r (by simp [enq_addrs, hr]))
    obtain ⟨h2, agt2, q2, hrun, hq2, hadd2⟩ :=
      run_ops_fifo_from ops (h.set t (some { ct.2 with next := some p }))
        { agt with tail := some p } q1 hq1
        (fun _ => by simp [hadd1]) hnd1 hfr1
    have hhead : ∃ a, agt.head = some a := by
      unfold chain at hch
      exact ⟨_, hch.1⟩
    obtain ⟨a, hhd⟩ := hhead
    have henq : enqueue h agt (some p)
        = .ok (h.set t (some { ct.2 with next := some p }), { agt with tail := some p }) := by
      unfold enqueue
      rw [hhd]
      simp only [htail, load_of_cell htcell, store_of_cell _ htcell, bind, Except.bind,
        load_of_cell (cell_set_self _ htcell)]
    refine ⟨h2, agt2, q2, ?_, hq2, ?_⟩
    · simp only [run_ops, henq]
      rw [hadd1] at hrun
      simpa [fifo_run] using hrun
    · rw [hadd1] at hadd2
      simpa [fifo_run] using hadd2
  | .deq :: ops, h, agt, [], hch, _, hnd, hfr => by
    obtain ⟨h1, agt1, q1, hrun, hq1, hadd⟩ :=
      run_ops_fifo_from ops h agt [] hch (fun hn => (hn rfl).elim)
        (by simpa [addrs, enq_addrs] using hnd) (fun r hr => hfr r (by simpa [enq_addrs] using hr))
    unfold chain at hch
    refine ⟨h1, agt1, q1, ?_, hq1, ?_⟩
    · simp only [run_ops, dequeue, hch, hrun]
      simp [addrs, fifo_run]
    · simpa [addrs, fifo_run] using hadd
  | .deq :: ops, h, agt, c :: rest, hch, htl, hnd, hfr => by
    have hch0 := hch
    unfold chain at hch
    have hnd1 : (addrs rest ++ enq_addrs ops).Nodup := by
      have := hnd
      simp only [addrs, List.map_cons, List.cons_append, List.nodup_cons, enq_addrs] at this ⊢
      exact this.2
    have htl1 : rest ≠ [] → ({ agt with head := c.2.next } : agent).tail = (addrs rest).getLast? := by
      intro hr
      obtain ⟨d, rest1, hd⟩ := List.exists_cons_of_ne_nil hr
      have := htl (by simp)
      rw [this, hd]
      simp [addrs, List.getLast?_cons_cons]
    obtain ⟨h1, agt1, q1, hrun, hq1, hadd⟩ :=
      run_ops_fifo_from ops h { agt with head := c.2.next } rest hch.2.2 htl1 hnd1
        (fun r hr => hfr r (by simpa [enq_addrs] using hr))
    refine ⟨h1, agt1, q1, ?_, hq1, ?_⟩
    · simp only [run_ops, dequeue, hch.1, load_of_cell hch.2.1, bind, Except.bind, hrun]
      simp [addrs, fifo_run]
    · simpa [addrs, fifo_run] using hadd

/-- C4: starting from a freshly created agent, every interleaving of `enqueue`
calls on fresh, pairwise different groups and `dequeue` calls runs without a
fault and behaves as the reference FIFO list does: the calls of `dequeue`
return, in order, what the reference returns (the oldest group not yet
dequeued, or `NULL` when there is none), and the cells reachable from `head`
at the end are the reference list, in its order. -/
theorem queue_refines_fifo (h : Heap) (ops : List QueueOp)
    (hnd : (enq_addrs ops).Nodup) (hfr : ∀ p ∈ enq_addrs ops, fresh h p) :
    ∃ h1 agt1 q1, run_ops ops h create_agent = .ok ((fifo_run ops []).1, h1, agt1)
      ∧ chain h1 agt1.head q1 ∧ addrs q1 = (fifo_run ops []).2 := by
  have hch : chain h create_agent.head [] := by
    unfold chain
    rfl
  exact run_ops_fifo_from ops h create_agent [] hch (fun hn => (hn rfl).elim)
    (by simpa [addrs] using hnd) hfr

/-- Three groups: two are enqueued and dequeued, a further `dequeue` finds the
queue empty, and the third group, enqueued after the queue was drained, comes
out next while a fourth call leaves nothing behind. -/
theorem queue_refines_fifo_witness :
    (enq_addrs [.enq 0, .enq 1, .deq, .deq, .deq, .enq 2, .deq]).Nodup
      ∧ (∀ p ∈ enq_addrs [.enq 0, .enq 1, .deq, .deq, .deq, .enq 2, .deq],
          fresh [some (group.mk 1 0 1 none none), some (group.mk 2 1 0 none none),
            some (group.mk 3 4 1 none none)] p)
      ∧ ∃ h1 agt1 q1,
          run_ops [.enq 0, .enq 1, .deq, .deq, .deq, .enq 2, .deq]
              [some (group.mk 1 0 1 none none), some (group.mk 2 1 0 none none),
                some (group.mk 3 4 1 none none)] create_agent
            = .ok ([some 0, some 1, none, some 2], h1, agt1)
          ∧ chain h1 agt1.head q1 ∧ addrs q1 = [] :=
  ⟨by decide, by decide,
    queue_refines_fifo
      [some (group.mk 1 0 1 none none), some (group.mk 2 1 0 none none),
        some (group.mk 3 4 1 none none)]
      [.enq 0, .enq 1, .deq, .deq, .deq, .enq 2, .deq] (by decide) (by decide)⟩

/-- C5: `dequeue` on an agent whose queue is empty (`head` is `NULL`) returns
`NULL` without a fault and leaves the agent as it was (it never writes to the
memory of the groups); and when `dequeue` returns `NULL` the queue was empty. -/
theorem dequeue_empty (h : Heap) (agt : agent) :
    (agt.head = none → dequeue h agt = .ok (none, agt))
      ∧ (∀ r agt1, dequeue h agt = .ok (r, agt1) → (r = none ↔ agt.head = none)) := by
  constructor
  · intro hh
    simp [dequeue, hh]
  · intro r agt1 hd
    unfold dequeue at hd
    cases hh : agt.head with
    | none =>
      rw [hh] at hd
      simp only [Except.ok.injEq, Prod.mk.injEq] at hd
      simp [← hd.1]
    | some a =>
      rw [hh] at hd
      cases hl : load h (some a) with
      | error e => simp [hl, bind, Except.bind] at hd
      | ok g =>
        simp only [hl, bind, Except.bind, Except.ok.injEq, Prod.mk.injEq] at hd
        simp [← hd.1]

/-- A drained agent whose `tail` still points at the last group served. -/
theorem dequeue_empty_witness :
    dequeue [some (group.mk 1 0 1 none none)] (agent.mk 0 0 none (some 0))
        = .ok (none, agent.mk 0 0 none (some 0))
      ∧ dequeue [some (group.mk 1 0 1 none none)] (agent.mk 0 0 (some 0) (some 0))
        = .ok (some 0, agent.mk 0 0 none (some 0)) :=
  ⟨(dequeue_empty _ _).1 rfl, by decide⟩

/-! ## The replay loops of `calc_time` -/

theorem set_of_cell {α : Type} : ∀ (l : List α) (i : Nat) (a : α), l[i]? = some a → l.set i a = l
  | [], _, _, h => by simp at h
  | x :: l, 0, a, h => by
    simp only [List.getElem?_cons_zero, Option.some.injEq] at h
    simp [h]
  | x :: l, i + 1, a, h => by
    simp only [List.getElem?_cons_succ] at h
    simp [set_of_cell l i a h]

theorem served_of_head_none {agt : agent} (h : agt.head = none) : served agt = agt := by
  cases agt
  simp only at h
  simp [served, h]

theorem agent_at_of_cell {agents : List agent} {i : Nat} {agt : agent}
    (h : agents[i]? = some agt) : agent_at agents i = .ok agt := by
  simp [agent_at, h]

theorem elapsed_cons (g : group) (gs : List group) :
    elapsed (g :: gs) = proc_time g + elapsed gs := by
  simp [elapsed]

/-- The `while` loop serves a well-formed queue to its end, given at least as
much fuel as the queue has cells. -/
theorem while_loop_eq (i : Nat) :
    ∀ (q : List (Nat × group)) (fuel : Nat) (s : CalcState) (cur : Int) (agt : agent),
      s.agents[i]? = some agt → chain s.heap agt.head q → (addrs q).Nodup →
      q.length ≤ fuel →
      while_loop i fuel s cur
        = .ok ({ heap := free_all s.heap (addrs q),
                 agents := s.agents.set i (served agt),
                 report := { s.report with
                   max_wait_time :=
                     (waits_from cur (groups q)).foldl max_step s.report.max_wait_time },
                 totalNumberGroupsProcessed := s.totalNumberGroupsProcessed + q.length,
                 totalWaitTime := s.totalWaitTime + (waits_from cur (groups q)).sum },
               cur + elapsed (groups q))
  | [], fuel, s, cur, agt, hi, hch, _, _ => by
    unfold chain at hch
    have hs : s.agents.set i (served agt) = s.agents := by
      rw [served_of_head_none hch]
      exact set_of_cell _ _ _ hi
    cases fuel <;>
      simp [while_loop, agent_at_of_cell hi, hch, hs, addrs, groups, free_all, waits_from,
        elapsed]
  | c :: rest, 0, _, _, _, _, _, _, hf => by simp at hf
  | c :: rest, fuel + 1, s, cur, agt, hi, hch, hnd, hf => by
    unfold chain at hch
    have hnd1 : c.1 ∉ addrs rest ∧ (addrs rest).Nodup := by
      simpa [addrs] using hnd
    have hilt : i < s.agents.length := by
      rcases List.getElem?_eq_some.mp hi with ⟨hlt, _⟩
      exact hlt
    have hbody : while_body i s cur
        = .ok ({ heap := s.heap.set c.1 none,
                 agents := s.agents.set i { agt with head := c.2.next },
                 report := { s.report with
                   max_wait_time := max_step s.report.max_wait_time cur },
                 totalNumberGroupsProcessed := s.totalNumberGroupsProcessed + 1,
                 totalWaitTime := s.totalWaitTime + cur },
               cur + proc_time c.2) := by
      unfold while_body
      simp only [agent_at_of_cell hi, hch.1, load_of_cell hch.2.1, dequeue, bind, Except.bind,
        free_of_cell hch.2.1, max_step]
      split_ifs <;> rfl
    have hi1 : (s.agents.set i { agt with head := c.2.next })[i]?
        = some { agt with head := c.2.next } := by
      simp [List.getElem?_set, hilt]
    have ih := while_loop_eq i rest fuel
      { heap := s.heap.set c.1 none,
        agents := s.agents.set i { agt with head := c.2.next },
        report := { s.report with max_wait_time := max_step s.report.max_wait_time cur },
        totalNumberGroupsProcessed := s.totalNumberGroupsProcessed + 1,
        totalWaitTime := s.totalWaitTime + cur }
      (cur + proc_time c.2) { agt with head := c.2.next } hi1
      (chain_set_of_not_mem none rest c.2.next hch.2.2 hnd1.1) hnd1.2
      (by simpa using hf)
    unfold while_loop
    simp only [agent_at_of_cell hi, hch.1, hbody, ih]
    simp only [List.set_set, served, addrs, groups, List.map_cons, free_all, waits_from,
      List.foldl_cons, List.sum_cons, elapsed, List.length_cons, Nat.cast_add, Nat.cast_one]
    refine congrArg Except.ok (Prod.ext ?_ ?_)
    · simp only [CalcState.mk.injEq, true_and]
      constructor <;> omega
    · simp only
      omega

theorem wait_times_cons (g : group) (gs : List group) :
    wait_times (g :: gs) = 0 :: (wait_times gs).map (fun w => proc_time g + w) := by
  simp only [wait_times, List.length_cons, List.range_succ_eq_map, List.map_cons, List.map_map]
  refine congrArg₂ List.cons (by simp [wait_time]) ?_
  apply List.map_congr_left
  intro i _
  simp [wait_time]

theorem waits_from_eq : ∀ (q : List group) (cur : Int),
    waits_from cur q = (wait_times q).map (fun w => cur + w)
  | [], _ => by simp [waits_from, wait_times]
  | g :: gs, cur => by
    rw [wait_times_cons]
    simp only [waits_from, waits_from_eq gs, List.map_cons, List.map_map, add_zero]
    refine congrArg₂ List.cons rfl ?_
    apply List.map_congr_left
    intro w _
    simp only [Function.comp]
    omega

theorem waits_from_zero (q : List group) : waits_from 0 q = wait_times q := by
  rw [waits_from_eq]
  simp

theorem add_pay_eq (p e : Int) : add_pay p e = p + add_pay 0 e := by
  unfold add_pay
  simp only
  split_ifs <;> omega

theorem free_all_append : ∀ (a b : List Nat) (h : Heap),
    free_all h (a ++ b) = free_all (free_all h a) b
  | [], _, _ => rfl
  | x :: a, b, h => by
    simp only [List.cons_append, free_all]
    exact free_all_append a b _

/-- Freeing cells outside a queue leaves the queue as it is. -/
theorem chain_free_all : ∀ (fr : List Nat) (h : Heap) (q : List (Nat × group)) (p : Option Nat),
    chain h p q → (∀ a ∈ fr, a ∉ addrs q) → chain (free_all h fr) p q
  | [], _, _, _, hch, _ => hch
  | x :: fr, h, q, p, hch, hd => by
    unfold free_all
    exact chain_free_all fr _ q p (chain_set_of_not_mem none q p hch (hd x (by simp)))
      (fun a ha => hd a (by simp [ha]))

theorem lines_free_all (fr : List Nat) (h : Heap) :
    ∀ (agents : List agent) (qs : List (List (Nat × group))),
      lines h agents qs → (∀ a ∈ fr, a ∉ addrs qs.flatten) → lines (free_all h fr) agents qs
  | [], [], _, _ => by
    unfold lines
    trivial
  | agt :: agents, q :: qs, hl, hd => by
    unfold lines at hl ⊢
    refine ⟨chain_free_all fr h q _ hl.1 (fun a ha hm => hd a ha (by simp [addrs] at hm ⊢; tauto)),
      lines_free_all fr h agents qs hl.2 (fun a ha hm => hd a ha (by simp [addrs] at hm ⊢; tauto))⟩
  | [], _ :: _, hl, _ => by
    unfold lines at hl
    exact hl.elim
  | _ :: _, [], hl, _ => by
    unfold lines at hl
    exact hl.elim

theorem lines_length (h : Heap) : ∀ (agents : List agent) (qs : List (List (Nat × group))),
    lines h agents qs → agents.length = qs.length
  | [], [], _ => rfl
  | agt :: agents, q :: qs, hl => by
    unfold lines at hl
    simp [lines_length h agents qs hl.2]
  | [], _ :: _, hl => by
    unfold lines at hl
    exact hl.elim
  | _ :: _, [], hl => by
    unfold lines at hl
    exact hl.elim

/-- One round of the `for` loop serves the queue of agent `i` and books the
agent's time and pay. -/
theorem for_body_eq (fuel i : Nat) (s : CalcState) (agt : agent) (q : List (Nat × group))
    (hi : s.agents[i]? = some agt) (hch : chain s.heap agt.head q) (hnd : (addrs q).Nodup)
    (hf : q.length ≤ fuel) :
    for_body fuel i s
      = .ok { heap := free_all s.heap (addrs q),
              agents := s.agents.set i (served agt),
              report :=
                { total_time := s.report.total_time + elapsed (groups q),
                  total_payroll := s.report.total_payroll + add_pay 0 (elapsed (groups q)),
                  avg_wait_time := s.report.avg_wait_time,
                  max_wait_time :=
                    (wait_times (groups q)).foldl max_step s.report.max_wait_time },
              totalNumberGroupsProcessed := s.totalNumberGroupsProcessed + q.length,
              totalWaitTime := s.totalWaitTime + (wait_times (groups q)).sum } := by
  unfold for_body
  rw [while_loop_eq i q fuel s 0 agt hi hch hnd hf]
  simp only [bind, Except.bind, waits_from_zero, zero_add]
  rw [add_pay_eq]

/-- The `for` loop serves the queues of the agents still to come, one after
the other, and leaves the agents before them alone. -/
theorem for_loop_eq (fuel : Nat) :
    ∀ (qs : List (List (Nat × group))) (rest pre : List agent) (s : CalcState),
      s.agents = pre ++ rest → lines s.heap rest qs → (addrs qs.flatten).Nodup →
      (∀ q ∈ qs, q.length ≤ fuel) →
      for_loop fuel qs.length pre.length s
        = .ok { heap := free_all s.heap (addrs qs.flatten),
                agents := pre ++ rest.map served,
                report :=
                  { total_time := s.report.total_time + ((qs.map groups).map elapsed).sum,
                    total_payroll := s.report.total_payroll
                      + ((qs.map groups).map (fun q => add_pay 0 (elapsed q))).sum,
                    avg_wait_time := s.report.avg_wait_time,
                    max_wait_time :=
                      (all_waits (qs.map groups)).foldl max_step s.report.max_wait_time },
                totalNumberGroupsProcessed :=
                  s.totalNumberGroupsProcessed + total_groups (qs.map groups),
                totalWaitTime := s.totalWaitTime + (all_waits (qs.map groups)).sum }
  | [], [], pre, s, hs, _, _, _ => by
    cases s
    simp only at hs
    simp [for_loop, hs, addrs, free_all, all_waits, total_groups]
  | [], _ :: _, _, _, _, hl, _, _ => by
    unfold lines at hl
    exact hl.elim
  | _ :: _, [], _, _, _, hl, _, _ => by
    unfold lines at hl
    exact hl.elim
  | q :: qs, agt :: rest, pre, s, hs, hl, hnd, hf => by
    unfold lines at hl
    have hi : s.agents[pre.length]? = some agt := by
      rw [hs, List.getElem?_append_right (le_refl _)]
      simp
    have hnd0 : (addrs q ++ addrs qs.flatten).Nodup := by
      simpa [addrs] using hnd
    have hndq : (addrs q).Nodup := (List.nodup_append.mp hnd0).1
    have hndqs : (addrs qs.flatten).Nodup := (List.nodup_append.mp hnd0).2.1
    have hdisj := (List.nodup_append.mp hnd0).2.2
    have hbody := for_body_eq fuel pre.length s agt q hi hl.1 hndq (hf q (by simp))
    have hset : s.agents.set pre.length (served agt) = (pre ++ [served agt]) ++ rest := by
      rw [hs]
      simp
    have ih := for_loop_eq fuel qs rest (pre ++ [served agt])
      { heap := free_all s.heap (addrs q),
        agents := s.agents.set pre.length (served agt),
        report :=
          { total_time := s.report.total_time + elapsed (groups q),
            total_payroll := s.report.total_payroll + add_pay 0 (elapsed (groups q)),
            avg_wait_time := s.report.avg_wait_time,
            max_wait_time := (wait_times (groups q)).foldl max_step s.report.max_wait_time },
        totalNumberGroupsProcessed := s.totalNumberGroupsProcessed + q.length,
        totalWaitTime := s.totalWaitTime + (wait_times (groups q)).sum }
      hset (lines_free_all (addrs q) s.heap rest qs hl.2 (fun a ha hm => hdisj ha hm)) hndqs
      (fun q1 hq1 => hf q1 (by simp [hq1]))
    simp only [List.length_append, List.length_singleton] at ih
    simp only [List.length_cons, for_loop, hbody, ih]
    simp only [addrs, List.flatten_cons, List.map_append, free_all_append, List.map_cons,
      List.sum_cons, all_waits, List.foldl_append, List.sum_append, total_groups,
      List.append_assoc, List.singleton_append, Nat.cast_add, groups, List.length_map]
    refine congrArg Except.ok ?_
    simp only [CalcState.mk.injEq, stats.mk.injEq, true_and, and_true]
    refine ⟨⟨?_, ?_⟩, ?_, ?_⟩ <;> omega

/-- What `calc_time` computes on an array of separate, well-formed queues
holding at least one group, given at least as much fuel as the longest queue
has cells. -/
theorem calc_time_eq (fuel : Nat) (h : Heap) (agents : List agent)
    (qs : List (List (Nat × group))) (hw : separate_lines h agents qs)
    (hf : ∀ q ∈ qs, q.length ≤ fuel) (hpos : 0 < total_groups (qs.map groups)) :
    calc_time fuel agents.length h agents
      = .ok ({ total_time := ((qs.map groups).map elapsed).sum,
               total_payroll := ((qs.map groups).map (fun q => add_pay 0 (elapsed q))).sum,
               avg_wait_time :=
                 Int.tdiv (all_waits (qs.map groups)).sum (total_groups (qs.map groups)),
               max_wait_time := (all_waits (qs.map groups)).foldl max_step 0 },
             free_all h (addrs qs.flatten), agents.map served) := by
  have hlen := lines_length h agents qs hw.1
  have hloop := for_loop_eq fuel qs agents []
    { heap := h, agents := agents,
      report := { max_wait_time := 0, total_payroll := 0, total_time := 0, avg_wait_time := 0 },
      totalNumberGroupsProcessed := 0, totalWaitTime := 0 }
    (by simp) hw.1 hw.2 hf
  simp only [List.length_nil, ← hlen, zero_add, List.nil_append] at hloop
  unfold calc_time
  simp only [Int.toNat_ofNat, hloop, bind, Except.bind]
  have hne : ¬ ((total_groups (qs.map groups) : Int) = 0) := by omega
  simp [hne]

/-! ## Statistics of `calc_time` -/

theorem proc_time_nonneg {g : group} (hv : valid_group g) : 0 ≤ proc_time g := by
  have h1 : 0 ≤ Int.tdiv (1 + g.children) 2 := Int.tdiv_nonneg (by omega) (by decide)
  have ha := hv.1
  unfold proc_time
  by_cases hu : g.usa = 0
  · simp only [hu, if_true]
    omega
  · simp only [hu, if_false]
    omega

theorem elapsed_nonneg : ∀ (q : List group), (∀ g ∈ q, valid_group g) → 0 ≤ elapsed q
  | [], _ => by simp [elapsed]
  | g :: gs, hv => by
    rw [elapsed_cons]
    have h1 := proc_time_nonneg (hv g (by simp))
    have h2 := elapsed_nonneg gs (fun x hx => hv x (by simp [hx]))
    omega

theorem wait_times_nonneg : ∀ (q : List group), (∀ g ∈ q, valid_group g) →
    ∀ w ∈ wait_times q, 0 ≤ w
  | [], _, w, hw => by simp [wait_times] at hw
  | g :: gs, hv, w, hw => by
    rw [wait_times_cons] at hw
    rcases List.mem_cons.mp hw with e | hm
    · omega
    · obtain ⟨w1, hw1, e⟩ := List.mem_map.mp hm
      have h1 := proc_time_nonneg (hv g (by simp))
      have h2 := wait_times_nonneg gs (fun x hx => hv x (by simp [hx])) w1 hw1
      omega

theorem all_waits_nonneg : ∀ (qs : List (List group)),
    (∀ q ∈ qs, ∀ g ∈ q, valid_group g) → ∀ w ∈ all_waits qs, 0 ≤ w
  | [], _, w, hw => by simp [all_waits] at hw
  | q :: qs, hv, w, hw => by
    simp only [all_waits, List.map_cons, List.flatten_cons, List.mem_append] at hw
    rcases hw with h1 | h2
    · exact wait_times_nonneg q (hv q (by simp)) w h1
    · exact all_waits_nonneg qs (fun x hx => hv x (by simp [hx])) w h2

theorem valid_groups_of_cells {qs : List (List (Nat × group))}
    (hv : ∀ q ∈ qs, ∀ c ∈ q, valid_group c.2) :
    ∀ q ∈ qs.map groups, ∀ g ∈ q, valid_group g := by
  intro q hq g hg
  obtain ⟨q0, hq0, e⟩ := List.mem_map.mp hq
  subst e
  obtain ⟨c, hc, e⟩ := List.mem_map.mp hg
  subst e
  exact hv q0 hq0 c hc

theorem zero_mem_all_waits : ∀ (qs : List (List group)), 0 < total_groups qs →
    (0 : Int) ∈ all_waits qs
  | [], h => by simp [total_groups] at h
  | [] :: qs, h => by
    have h1 : 0 < total_groups qs := by simpa [total_groups] using h
    simpa [all_waits, wait_times] using zero_mem_all_waits qs h1
  | (g :: gs) :: qs, _ => by
    simp [all_waits, wait_times_cons]

theorem le_foldl_max_step : ∀ (l : List Int) (m : Int),
    m ≤ l.foldl max_step m ∧ ∀ w ∈ l, w ≤ l.foldl max_step m
  | [], m => by simp
  | x :: l, m => by
    have ih := le_foldl_max_step l (max_step m x)
    have h1 : m ≤ max_step m x ∧ x ≤ max_step m x := by
      unfold max_step
      split_ifs <;> omega
    simp only [List.foldl_cons, List.mem_cons]
    refine ⟨by omega, ?_⟩
    rintro w (e | hw)
    · omega
    · exact ih.2 w hw

theorem foldl_max_step_mem : ∀ (l : List Int) (m : Int),
    l.foldl max_step m = m ∨ l.foldl max_step m ∈ l
  | [], m => by simp
  | x :: l, m => by
    have h1 : max_step m x = m ∨ max_step m x = x := by
      unfold max_step
      split_ifs <;> simp
    simp only [List.foldl_cons, List.mem_cons]
    rcases foldl_max_step_mem l (max_step m x) with e | hm
    · rcases h1 with e1 | e1
      · exact Or.inl (by rw [e, e1])
      · exact Or.inr (Or.inl (by rw [e, e1]))
    · exact Or.inr (Or.inr hm)

theorem add_pay_zero_eq_spec_pay {e : Int} (he : 0 ≤ e) : add_pay 0 e = spec_pay e := by
  have h1 : Int.tdiv e 60 = e / 60 := Int.tdiv_eq_ediv he (by decide)
  have h2 : Int.fdiv e 60 = e / 60 := Int.fdiv_eq_ediv e (by decide)
  unfold add_pay spec_pay
  simp only [h1, h2]
  split_ifs <;> omega

theorem sum_all_waits : ∀ (qs : List (List group)), (all_waits qs).sum = total_wait qs
  | [] => by simp [all_waits, total_wait]
  | q :: qs => by
    have ih := sum_all_waits qs
    simp only [all_waits, total_wait, List.map_cons, List.flatten_cons, List.sum_append,
      List.sum_cons] at ih ⊢
    rw [ih]

theorem total_wait_nonneg (qs : List (List group)) (hv : ∀ q ∈ qs, ∀ g ∈ q, valid_group g) :
    0 ≤ total_wait qs := by
  rw [← sum_all_waits]
  exact List.sum_nonneg (all_waits_nonneg qs hv)

/-! ## Monotone pay -/

/-- C9: the amount `calc_time` adds to the payroll for one agent does not
decrease when the agent's elapsed minutes grow: for `0 ≤ e1 ≤ e2` the pay for
`e1` is at most the pay for `e2`, the overtime boundary included. -/
theorem pay_monotone (p e1 e2 : Int) (h0 : 0 ≤ e1) (h12 : e1 ≤ e2) :
    add_pay p e1 - p ≤ add_pay p e2 - p := by
  have h1 : Int.tdiv e1 60 = e1 / 60 := Int.tdiv_eq_ediv h0 (by decide)
  have h2 : Int.tdiv e2 60 = e2 / 60 := Int.tdiv_eq_ediv (by omega) (by decide)
  unfold add_pay
  simp only [h1, h2]
  split_ifs <;> omega

/-- Eight hours against ten: 160 dollars against 220. -/
theorem pay_monotone_witness :
    (0 : Int) ≤ 500 ∧ (500 : Int) ≤ 600 ∧ add_pay 0 500 - 0 ≤ add_pay 0 600 - 0 :=
  ⟨by decide, by decide, pay_monotone 0 500 600 (by decide) (by decide)⟩

/-! ## No groups at all -/

theorem for_loop_no_groups (fuel : Nat) : ∀ (k i : Nat) (s : CalcState),
    (∀ a ∈ s.agents, a.head = none) → i + k ≤ s.agents.length → for_loop fuel k i s = .ok s
  | 0, _, _, _, _ => rfl
  | k + 1, i, s, hs, hk => by
    have hilt : i < s.agents.length := by omega
    have hi : s.agents[i]? = some s.agents[i] := List.getElem?_eq_getElem hilt
    have hhead : s.agents[i].head = none := hs _ (List.getElem_mem hilt)
    have hwl : while_loop i fuel s 0 = .ok (s, 0) := by
      cases fuel <;> simp [while_loop, agent_at_of_cell hi, hhead]
    have hbody : for_body fuel i s = .ok s := by
      unfold for_body
      simp [hwl, bind, Except.bind, add_pay]
    simp only [for_loop, hbody]
    exact for_loop_no_groups fuel k (i + 1) s hs (by omega)

/-- C10 fails on the code: when every agent's queue is empty, and likewise
when `num_agents` is 0, `calc_time` reaches its final division with a zero
divisor. -/
theorem calc_time_no_groups (fuel : Nat) (h : Heap) (agents : List agent)
    (hempty : ∀ a ∈ agents, a.head = none) :
    calc_time fuel agents.length h agents = .error .divByZero
      ∧ calc_time fuel 0 h agents = .error .divByZero := by
  constructor
  · have hloop := for_loop_no_groups fuel agents.length 0
      { heap := h, agents := agents,
        report := { max_wait_time := 0, total_payroll := 0, total_time := 0, avg_wait_time := 0 },
        totalNumberGroupsProcessed := 0, totalWaitTime := 0 }
      hempty (by simp)
    unfold calc_time
    simp only [Int.toNat_ofNat, hloop, bind, Except.bind]
    rfl
  · rfl

/-- Ten agents as `main` creates them, and no group. -/
theorem calc_time_no_groups_witness :
    calc_time 0 10 [] (List.replicate 10 create_agent) = .error .divByZero
      ∧ calc_time 0 0 [] (List.replicate 10 create_agent) = .error .divByZero :=
  calc_time_no_groups 0 [] (List.replicate 10 create_agent) (by decide)

/-! ## The setup of `main`: round robin -/

/-- A new cell at the end of the heap leaves every queue as it is. -/
theorem chain_alloc {h : Heap} (x : Option group) :
    ∀ (q : List (Nat × group)) (p : Option Nat), chain h p q → chain (h ++ [x]) p q
  | [], _, hch => by
    unfold chain at hch ⊢
    exact hch
  | c :: rest, p, hch => by
    unfold chain at hch ⊢
    have hlt : c.1 < h.length := by
      rcases List.getElem?_eq_some.mp hch.2.1 with ⟨hlt, _⟩
      exact hlt
    exact ⟨hch.1, by rw [List.getElem?_append_left hlt]; exact hch.2.1,
      chain_alloc x rest c.2.next hch.2.2⟩

/-- What `enqueue` does to a well-formed queue when it is given a fresh group:
the group is appended, `tail` points at it, and the only cell written, if any,
is the former last cell of this queue. -/
theorem enqueue_queue {h : Heap} {agt : agent} {p : Nat} {g : group}
    (q : List (Nat × group)) (hch : chain h agt.head q)
    (htl : q ≠ [] → agt.tail = (addrs q).getLast?) (hnd : (addrs q).Nodup)
    (hpq : p ∉ addrs q) (hg : h[p]? = some (some g)) (hgn : g.next = none) :
    ∃ h1 agt1 q1, enqueue h agt (some p) = .ok (h1, agt1) ∧ chain h1 agt1.head q1
      ∧ addrs q1 = addrs q ++ [p] ∧ agt1.tail = some p
      ∧ (h1 = h ∨ ∃ t tg, t ∈ addrs q ∧ h[t]? = some (some tg)
          ∧ h1 = h.set t (some { tg with next := some p })) := by
  cases q with
  | nil =>
    unfold chain at hch
    refine ⟨h, { agt with head := some p, tail := some p }, [(p, g)], ?_, ?_, by simp [addrs],
      rfl, Or.inl rfl⟩
    · simp [enqueue, hch]
    · unfold chain
      refine ⟨rfl, hg, ?_⟩
      unfold chain
      exact hgn
  | cons c rest =>
    have hne : (addrs (c :: rest)) ≠ [] := by simp [addrs]
    obtain ⟨t, ht⟩ : ∃ t, (addrs (c :: rest)).getLast? = some t :=
      ⟨_, List.getLast?_eq_getLast _ hne⟩
    have htail : agt.tail = some t := by rw [htl (by simp), ht]
    have htmem : t ∈ addrs (c :: rest) := List.mem_of_getLast?_eq_some ht
    obtain ⟨ct, hct, hct1⟩ : ∃ ct ∈ c :: rest, ct.1 = t := by
      unfold addrs at htmem
      exact List.mem_map.mp htmem
    have htcell : h[t]? = some (some ct.2) := by
      rw [← hct1]
      exact chain_cell _ _ hch ct hct
    obtain ⟨q1, hq1, hadd1⟩ := chain_snoc hg hgn (c :: rest) agt.head hch ht htcell hnd hpq
    obtain ⟨a, hhd⟩ : ∃ a, agt.head = some a := by
      unfold chain at hch
      exact ⟨_, hch.1⟩
    have henq : enqueue h agt (some p)
        = .ok (h.set t (some { ct.2 with next := some p }), { agt with tail := some p }) := by
      unfold enqueue
      rw [hhd]
      simp only [htail, load_of_cell htcell, store_of_cell _ htcell, bind, Except.bind,
        load_of_cell (cell_set_self _ htcell)]
    exact ⟨_, _, q1, henq, hq1, hadd1, rfl, Or.inr ⟨t, ct.2, htmem, htcell, rfl⟩⟩

theorem mem_robin {n i j a : Nat} : a ∈ robin n i j ↔ a < i ∧ a % n = j := by
  simp [robin, List.mem_filter]

theorem robin_nodup (n i j : Nat) : (robin n i j).Nodup :=
  (List.nodup_range i).filter _

theorem robin_succ (n i j : Nat) :
    robin n (i + 1) j = if i % n = j then robin n i j ++ [i] else robin n i j := by
  unfold robin
  rw [List.range_succ, List.filter_append]
  by_cases hj : i % n = j <;> simp [hj]

theorem nth_group_next (rand : Nat → Int) (i : Nat) : (nth_group rand i).next = none := rfl

theorem nth_group_erase (rand : Nat → Int) (i : Nat) :
    ({ nth_group rand i with next := none } : group) = nth_group rand i := rfl

/-- One round of the setup loop keeps the invariant. -/
theorem setup_step (rand : Nat → Int) (n i : Nat) (h : Heap) (agents : List agent)
    (qs : List (List (Nat × group))) (hn : 0 < n) (hinv : setup_inv rand n i h agents qs) :
    ∃ agt h1 agt1 qs1, agent_at agents (i % n) = .ok agt
      ∧ enqueue (h ++ [some (nth_group rand i)]) agt (some h.length) = .ok (h1, agt1)
      ∧ setup_inv rand n (i + 1) h1 (agents.set (i % n) agt1) qs1 := by
  obtain ⟨hlen, hal, hql, hcells, hq⟩ := hinv
  have hj0 : i % n < n := Nat.mod_lt _ hn
  have hja : i % n < agents.length := by omega
  have hjq : i % n < qs.length := by omega
  have hagt : agents[i % n]? = some agents[i % n] := List.getElem?_eq_getElem hja
  have hqq : qs[i % n]? = some qs[i % n] := List.getElem?_eq_getElem hjq
  obtain ⟨hch0, htl0, hadd0⟩ := hq (i % n) _ _ hagt hqq
  have hnew : (h ++ [some (nth_group rand i)])[i]? = some (some (nth_group rand i)) := by
    rw [List.getElem?_append_right (by omega)]
    simp [hlen]
  have hold : ∀ a, a < i → (h ++ [some (nth_group rand i)])[a]? = h[a]? := by
    intro a ha
    exact List.getElem?_append_left (by omega)
  have hiq : i ∉ addrs qs[i % n] := by
    rw [hadd0, mem_robin]
    omega
  have hnd0 : (addrs qs[i % n]).Nodup := by
    rw [hadd0]
    exact robin_nodup _ _ _
  obtain ⟨h1, agt1, q1, henq, hch1, hadd1, htl1, hheap⟩ :=
    enqueue_queue qs[i % n] (chain_alloc _ _ _ hch0) htl0 hnd0 hiq hnew (nth_group_next rand i)
  have hwritten : ∀ t, t ∈ addrs qs[i % n] → t < i ∧ t % n = i % n := by
    intro t ht
    rw [hadd0] at ht
    exact mem_robin.mp ht
  refine ⟨agents[i % n], h1, agt1, qs.set (i % n) q1, agent_at_of_cell hagt, ?_, ?_, ?_, ?_,
    ?_, ?_⟩
  · rw [hlen]
    exact henq
  · rcases hheap with e | ⟨t, tg, _, _, e⟩ <;> simp [e, hlen]
  · simp [hal]
  · simp [hql]
  · intro a ha
    rcases hheap with e | ⟨t, tg, ht, htg, e⟩
    · rw [e]
      by_cases hai : a = i
      · subst hai
        exact ⟨_, hnew, nth_group_erase rand a⟩
      · rw [hold a (by omega)]
        exact hcells a (by omega)
    · rw [e]
      by_cases hat : a = t
      · subst hat
        have hlt := (hwritten a ht).1
        obtain ⟨g0, hg0, he0⟩ := hcells a hlt
        rw [hold a hlt, hg0] at htg
        simp only [Option.some.injEq] at htg
        refine ⟨_, cell_set_self _ (by rw [hold a hlt]; exact hg0), ?_⟩
        rw [← he0, htg]
      · rw [cell_set_other _ (fun e1 => hat e1.symm)]
        by_cases hai : a = i
        · subst hai
          exact ⟨_, hnew, nth_group_erase rand a⟩
        · rw [hold a (by omega)]
          exact hcells a (by omega)
  · intro j agt q hagtj hqj
    by_cases hjj : j = i % n
    · subst hjj
      have e1 : agt = agt1 := by
        rw [List.getElem?_set] at hagtj
        simp only [if_true, hja] at hagtj
        exact (Option.some.inj hagtj).symm
      have e2 : q = q1 := by
        rw [List.getElem?_set] at hqj
        simp only [if_true, hjq] at hqj
        exact (Option.some.inj hqj).symm
      subst e1 e2
      refine ⟨hch1, fun _ => ?_, ?_⟩
      · rw [htl1, hadd1, List.getLast?_concat]
      · rw [hadd1, hadd0, robin_succ]
        simp
    · have hagtj0 : agents[j]? = some agt := by
        rw [List.getElem?_set_ne (fun e => hjj e.symm)] at hagtj
        exact hagtj
      have hqj0 : qs[j]? = some q := by
        rw [List.getElem?_set_ne (fun e => hjj e.symm)] at hqj
        exact hqj
      obtain ⟨hchj, htlj, haddj⟩ := hq j agt q hagtj0 hqj0
      refine ⟨?_, htlj, ?_⟩
      · rcases hheap with e | ⟨t, tg, ht, _, e⟩
        · rw [e]
          exact chain_alloc _ _ _ hchj
        · rw [e]
          refine chain_set_of_not_mem _ q agt.head (chain_alloc _ _ _ hchj) ?_
          intro htq
          rw [haddj] at htq
          have h1 := (mem_robin.mp htq).2
          have h2 := (hwritten t ht).2
          omega
      · rw [haddj, robin_succ, if_neg (fun e => hjj e.symm)]

/-- The setup loop runs to its end without a fault and keeps the invariant. -/
theorem setup_loop_inv (rand : Nat → Int) (n : Nat) (hn : 0 < n) :
    ∀ (k i : Nat) (h : Heap) (agents : List agent) (qs : List (List (Nat × group))),
      setup_inv rand n i h agents qs →
      ∃ h1 agents1 qs1, setup_loop rand n k i h agents = .ok (h1, agents1)
        ∧ setup_inv rand n (i + k) h1 agents1 qs1
  | 0, i, h, agents, qs, hinv => ⟨h, agents, qs, rfl, hinv⟩
  | k + 1, i, h, agents, qs, hinv => by
    obtain ⟨agt, h1, agt1, qs1, hat, henq, hinv1⟩ := setup_step rand n i h agents qs hn hinv
    obtain ⟨h2, agents2, qs2, hrun, hinv2⟩ :=
      setup_loop_inv rand n hn k (i + 1) h1 (agents.set (i % n) agt1) qs1 hinv1
    refine ⟨h2, agents2, qs2, ?_, by rw [← Nat.add_assoc, Nat.add_right_comm]; exact hinv2⟩
    unfold setup_loop
    simp only [Nat.ne_of_gt hn, if_false, hat, alloc, henq, hrun]

theorem setup_inv_init (rand : Nat → Int) (n : Nat) :
    setup_inv rand n 0 [] (List.replicate n create_agent) (List.replicate n []) := by
  refine ⟨rfl, by simp, by simp, fun a ha => by omega, ?_⟩
  intro j agt q hagt hq
  rw [List.getElem?_replicate] at hagt hq
  split at hagt
  · next hjn =>
    rw [if_pos hjn] at hq
    simp only [Option.some.injEq] at hagt hq
    subst hagt hq
    refine ⟨?_, fun hne => (hne rfl).elim, by simp [addrs, robin]⟩
    unfold chain
    rfl
  · simp at hagt

theorem lines_of_cells (h : Heap) :
    ∀ (agents : List agent) (qs : List (List (Nat × group))), agents.length = qs.length →
      (∀ (j : Nat) (agt : agent) (q : List (Nat × group)),
        agents[j]? = some agt → qs[j]? = some q → chain h agt.head q) →
      lines h agents qs
  | [], [], _, _ => by
    unfold lines
    trivial
  | agt :: agents, q :: qs, hl, hc => by
    unfold lines
    refine ⟨hc 0 agt q (by simp) (by simp), lines_of_cells h agents qs (by simpa using hl) ?_⟩
    intro j a1 q1 h1 h2
    exact hc (j + 1) a1 q1 (by simpa using h1) (by simpa using h2)
  | [], _ :: _, hl, _ => by simp at hl
  | _ :: _, [], hl, _ => by simp at hl

/-- How many of the first `a * n + b` indices round robin gives agent `j`. -/
theorem length_robin_of_eq (n j : Nat) (hj : j < n) :
    ∀ (i a b : Nat), i = a * n + b → b < n →
      (robin n i j).length = a + if j < b then 1 else 0
  | 0, a, b, hi, hb => by
    have hb0 : b = 0 := by omega
    have ha0 : a * n = 0 := by omega
    have ha : a = 0 := by
      rcases Nat.mul_eq_zero.mp ha0 with e | e
      · exact e
      · omega
    simp [robin, hb0, ha]
  | i + 1, a, 0, hi, _ => by
    cases a with
    | zero => simp at hi
    | succ a1 =>
      have hi1 : i = a1 * n + (n - 1) := by
        rw [Nat.succ_mul] at hi
        omega
      have ih := length_robin_of_eq n j hj i a1 (n - 1) hi1 (by omega)
      have hmod : i % n = n - 1 := by
        rw [hi1, Nat.mul_comm, Nat.mul_add_mod]
        exact Nat.mod_eq_of_lt (by omega)
      rw [robin_succ, hmod]
      by_cases hjn : n - 1 = j
      · rw [if_pos hjn, List.length_append, List.length_singleton, ih]
        simp only [Nat.not_lt_zero, if_false]
        rw [if_neg (by omega)]
      · rw [if_neg hjn, ih]
        simp only [Nat.not_lt_zero, if_false]
        rw [if_pos (by omega)]
  | i + 1, a, b + 1, hi, hb => by
    have hi1 : i = a * n + b := by omega
    have ih := length_robin_of_eq n j hj i a b hi1 (by omega)
    have hmod : i % n = b := by
      rw [hi1, Nat.mul_comm, Nat.mul_add_mod]
      exact Nat.mod_eq_of_lt (by omega)
    rw [robin_succ, hmod]
    by_cases hjb : b = j
    · rw [if_pos hjb, List.length_append, List.length_singleton, ih]
      rw [if_neg (by omega), if_pos (by omega)]
    · rw [if_neg hjb, ih]
      by_cases hlt : j < b
      · rw [if_pos hlt, if_pos (by omega)]
      · rw [if_neg hlt, if_neg (by omega)]

theorem length_robin (n i j : Nat) (hj : j < n) :
    (robin n i j).length = i / n + if j < i % n then 1 else 0 :=
  length_robin_of_eq n j hj i (i / n) (i % n)
    (by rw [Nat.mul_comm]; exact (Nat.div_add_mod i n).symm) (Nat.mod_lt _ (by omega))

theorem robin_flatten_nodup (n i : Nat) :
    (((List.range n).map (fun j => robin n i j)).flatten).Nodup := by
  rw [List.nodup_flatten]
  constructor
  · intro l hl
    obtain ⟨j, _, e⟩ := List.mem_map.mp hl
    rw [← e]
    exact robin_nodup n i j
  · rw [List.pairwise_map]
    refine (List.nodup_range n).pairwise_of_forall_ne ?_
    intro j1 _ j2 _ hne a ha1 ha2
    have h1 := (mem_robin.mp ha1).2
    have h2 := (mem_robin.mp ha2).2
    omega

/-- The queues the setup loops of `main` leave: separate and well formed, the
queue of agent `j` holding in arrival order the groups round robin gives it,
each group in the cell of its index. -/
theorem main_setup_queues (rand : Nat → Int) (num_agents num_groups : Nat)
    (hn : 0 < num_agents) :
    ∃ h agents qs, main_setup rand num_agents num_groups = .ok (h, agents)
      ∧ agents.length = num_agents ∧ qs.length = num_agents
      ∧ separate_lines h agents qs
      ∧ qs.map addrs
          = (List.range num_agents).map (fun j => robin num_agents num_groups j)
      ∧ (∀ q ∈ qs, ∀ c ∈ q, ({ c.2 with next := none } : group) = nth_group rand c.1)
      ∧ (∀ q ∈ qs, ∃ j, j < num_agents ∧ q.length
          = num_groups / num_agents + if j < num_groups % num_agents then 1 else 0) := by
  obtain ⟨h, agents, qs, hrun, hinv⟩ :=
    setup_loop_inv rand num_agents hn num_groups 0 [] (List.replicate num_agents create_agent)
      (List.replicate num_agents []) (setup_inv_init rand num_agents)
  rw [Nat.zero_add] at hinv
  obtain ⟨_, hal, hql, hcells, hq⟩ := hinv
  have hat : ∀ j, j < num_agents → ∃ agt, agents[j]? = some agt := fun j hj =>
    ⟨_, List.getElem?_eq_getElem (by omega)⟩
  have hqueue : ∀ q ∈ qs, ∃ (j : Nat) (agt : agent), j < num_agents ∧ chain h agt.head q
      ∧ addrs q = robin num_agents num_groups j := by
    intro q hq1
    obtain ⟨j, hj⟩ := List.mem_iff_getElem?.mp hq1
    have hjn : j < num_agents := by
      rcases List.getElem?_eq_some.mp hj with ⟨hlt, _⟩
      omega
    obtain ⟨agt, hagt⟩ := hat j hjn
    exact ⟨j, agt, hjn, (hq j agt q hagt hj).1, (hq j agt q hagt hj).2.2⟩
  have hmap : qs.map addrs
      = (List.range num_agents).map (fun j => robin num_agents num_groups j) := by
    apply List.ext_getElem?
    intro j
    rw [List.getElem?_map, List.getElem?_map]
    by_cases hjn : j < num_agents
    · obtain ⟨agt, hagt⟩ := hat j hjn
      have hqj : qs[j]? = some qs[j] := List.getElem?_eq_getElem (by omega)
      rw [hqj, List.getElem?_range hjn]
      simp only [Option.map_some']
      rw [(hq j agt _ hagt hqj).2.2]
    · rw [List.getElem?_eq_none (by omega),
        List.getElem?_eq_none (by rw [List.length_range]; omega)]
      rfl
  refine ⟨h, agents, qs, hrun, hal, hql, ⟨?_, ?_⟩, hmap, ?_, ?_⟩
  · exact lines_of_cells h agents qs (by omega) (fun j agt q h1 h2 => (hq j agt q h1 h2).1)
  · have e : addrs qs.flatten = (qs.map addrs).flatten := by
      unfold addrs
      rw [List.map_flatten]
    rw [e, hmap]
    exact robin_flatten_nodup num_agents num_groups
  · intro q hq1 c hc
    obtain ⟨j, agt, _, hch, hadd⟩ := hqueue q hq1
    have hcell := chain_cell q agt.head hch c hc
    have hmem : c.1 ∈ addrs q := List.mem_map.mpr ⟨c, hc, rfl⟩
    rw [hadd] at hmem
    obtain ⟨g, hg, he⟩ := hcells c.1 (mem_robin.mp hmem).1
    rw [hg] at hcell
    simp only [Option.some.injEq] at hcell
    rw [← hcell]
    exact he
  · intro q hq1
    obtain ⟨j, _, hjn, _, hadd⟩ := hqueue q hq1
    refine ⟨j, hjn, ?_⟩
    rw [← length_robin num_agents num_groups j hjn, ← hadd]
    simp [addrs]

/-- C11: with at least one agent, the setup loops of `main` run without a
fault and leave separate, well-formed queues in which the group created in
round `i` (it lives at address `i` and holds the travellers drawn in that
round) is in the queue of agent `i mod num_agents`: the queue of agent `j` is
exactly the groups with index `j`, `j + num_agents`, `j + 2 * num_agents`, ...
below `num_groups`, in arrival order.  The lengths of two queues differ by at
most one, and all are `num_groups / num_agents` when `num_agents` divides
`num_groups`. -/
theorem setup_round_robin (rand : Nat → Int) (num_agents num_groups : Nat)
    (hn : 0 < num_agents) :
    ∃ h agents qs, main_setup rand num_agents num_groups = .ok (h, agents)
      ∧ agents.length = num_agents
      ∧ separate_lines h agents qs
      ∧ qs.map addrs
          = (List.range num_agents).map
              (fun j => (List.range num_groups).filter (fun i => i % num_agents = j))
      ∧ (∀ q ∈ qs, ∀ c ∈ q, ({ c.2 with next := none } : group) = nth_group rand c.1)
      ∧ (∀ q1 ∈ qs, ∀ q2 ∈ qs, q1.length ≤ q2.length + 1)
      ∧ (num_agents ∣ num_groups → ∀ q ∈ qs, q.length = num_groups / num_agents) := by
  obtain ⟨h, agents, qs, hrun, hal, _, hsep, hmap, hcont, hlenq⟩ :=
    main_setup_queues rand num_agents num_groups hn
  refine ⟨h, agents, qs, hrun, hal, hsep, hmap, hcont, ?_, ?_⟩
  · intro q1 hq1 q2 hq2
    obtain ⟨j1, _, e1⟩ := hlenq q1 hq1
    obtain ⟨j2, _, e2⟩ := hlenq q2 hq2
    rw [e1, e2]
    split_ifs <;> omega
  · intro hdvd q hq1
    obtain ⟨j, _, e⟩ := hlenq q hq1
    rw [e, Nat.mod_eq_zero_of_dvd hdvd]
    simp

/-- The compiled constants, 10 agents and 1000 groups, with `rand()` counting
upwards: every agent gets 100 groups. -/
theorem setup_round_robin_witness :
    ∃ h agents qs, main_setup (fun n => (n : Int)) 10 1000 = .ok (h, agents)
      ∧ agents.length = 10
      ∧ separate_lines h agents qs
      ∧ qs.map addrs
          = (List.range 10).map (fun j => (List.range 1000).filter (fun i => i % 10 = j))
      ∧ ∀ q ∈ qs, q.length = 100 := by
  obtain ⟨h, agents, qs, hrun, hal, hsep, hmap, _, _, hdiv⟩ :=
    setup_round_robin (fun n => (n : Int)) 10 1000 (by decide)
  exact ⟨h, agents, qs, hrun, hal, hsep, hmap, hdiv (by decide)⟩

/-! ## Total time and the replay as a whole -/

theorem sum_elapsed_eq_flatten : ∀ (qs : List (List group)),
    (qs.map elapsed).sum = (qs.flatten.map proc_time).sum
  | [] => by simp
  | q :: qs => by
    simp only [List.map_cons, List.sum_cons, List.flatten_cons, List.map_append,
      List.sum_append, sum_elapsed_eq_flatten qs]
    rfl

/-- C14: for non-negative values `r1`, `r2`, `r3`, `r4` returned by `rand()`,
`create_group` yields a group with between 1 and 3 adults, with
`max 0 (r2 mod 4 + r3 mod 4 - 2)` children, hence between 0 and 4, with `usa`
false (0) exactly when `r4 mod 5 = 0` and true (1) otherwise, and with `next`
and `prev` being `NULL`. -/
theorem create_group_spec (r1 r2 r3 r4 : Int) (h1 : 0 ≤ r1) (h2 : 0 ≤ r2) (h3 : 0 ≤ r3)
    (h4 : 0 ≤ r4) :
    1 ≤ (create_group r1 r2 r3 r4).adults ∧ (create_group r1 r2 r3 r4).adults ≤ 3
      ∧ (create_group r1 r2 r3 r4).children = max 0 (r2 % 4 + r3 % 4 - 2)
      ∧ 0 ≤ (create_group r1 r2 r3 r4).children ∧ (create_group r1 r2 r3 r4).children ≤ 4
      ∧ ((create_group r1 r2 r3 r4).usa = 0 ↔ r4 % 5 = 0)
      ∧ (r4 % 5 ≠ 0 → (create_group r1 r2 r3 r4).usa = 1)
      ∧ (create_group r1 r2 r3 r4).next = none ∧ (create_group r1 r2 r3 r4).prev = none := by
  have e1 : Int.tmod r1 3 = r1 % 3 := Int.tmod_eq_emod h1 (by decide)
  have e2 : Int.tmod r2 4 = r2 % 4 := Int.tmod_eq_emod h2 (by decide)
  have e3 : Int.tmod r3 4 = r3 % 4 := Int.tmod_eq_emod h3 (by decide)
  have e4 : Int.tmod r4 5 = r4 % 5 := Int.tmod_eq_emod h4 (by decide)
  simp only [create_group, e1, e2, e3, e4]
  refine ⟨by omega, by omega, ?_, ?_, ?_, ?_, ?_, trivial, trivial⟩
  · split_ifs <;> omega
  · split_ifs <;> omega
  · split_ifs <;> omega
  · split_ifs <;> simp_all
  · intro hne
    simp [hne]

/-- The values 7, 3, 2 and 10: two adults, `3 + 2 - 2 = 3` children, and a
foreign group because 10 is a multiple of 5. -/
theorem create_group_spec_witness :
    create_group 7 3 2 10 = group.mk 2 3 0 none none
      ∧ 1 ≤ (create_group 7 3 2 10).adults ∧ (create_group 7 3 2 10).adults ≤ 3
      ∧ (create_group 7 3 2 10).children = max 0 (3 % 4 + 2 % 4 - 2)
      ∧ 0 ≤ (create_group 7 3 2 10).children ∧ (create_group 7 3 2 10).children ≤ 4
      ∧ ((create_group 7 3 2 10).usa = 0 ↔ (10 : Int) % 5 = 0)
      ∧ ((10 : Int) % 5 ≠ 0 → (create_group 7 3 2 10).usa = 1)
      ∧ (create_group 7 3 2 10).next = none ∧ (create_group 7 3 2 10).prev = none :=
  ⟨by decide, create_group_spec 7 3 2 10 (by decide) (by decide) (by decide) (by decide)⟩

/-! ## Order of the reported times -/

theorem sum_le_length_mul : ∀ (l : List Int) (m : Int), (∀ w ∈ l, w ≤ m) →
    l.sum ≤ l.length * m
  | [], _, _ => by simp
  | x :: l, m, hm => by
    have h1 := hm x (by simp)
    have h2 := sum_le_length_mul l m (fun w hw => hm w (by simp [hw]))
    simp only [List.sum_cons, List.length_cons, Nat.cast_add, Nat.cast_one, add_mul, one_mul]
    omega

theorem length_all_waits : ∀ (qs : List (List group)),
    (all_waits qs).length = total_groups qs
  | [] => by simp [all_waits, total_groups]
  | q :: qs => by
    have ih := length_all_waits qs
    simp only [all_waits, total_groups, List.map_cons, List.flatten_cons, List.length_append,
      List.sum_cons] at ih ⊢
    rw [ih]
    simp [wait_times]

theorem wait_times_le_elapsed : ∀ (q : List group), (∀ g ∈ q, valid_group g) →
    ∀ w ∈ wait_times q, w ≤ elapsed q
  | [], _, w, hw => by simp [wait_times] at hw
  | g :: gs, hv, w, hw => by
    rw [wait_times_cons] at hw
    rw [elapsed_cons]
    have h1 := proc_time_nonneg (hv g (by simp))
    have h2 := elapsed_nonneg gs (fun x hx => hv x (by simp [hx]))
    rcases List.mem_cons.mp hw with e | hm
    · omega
    · obtain ⟨w1, hw1, e⟩ := List.mem_map.mp hm
      have h3 := wait_times_le_elapsed gs (fun x hx => hv x (by simp [hx])) w1 hw1
      omega

theorem sum_elapsed_nonneg : ∀ (qs : List (List group)),
    (∀ q ∈ qs, ∀ g ∈ q, valid_group g) → 0 ≤ (qs.map elapsed).sum
  | [], _ => by simp
  | q :: qs, hv => by
    have h1 := elapsed_nonneg q (hv q (by simp))
    have h2 := sum_elapsed_nonneg qs (fun x hx => hv x (by simp [hx]))
    simp only [List.map_cons, List.sum_cons]
    omega

theorem all_waits_le_sum_elapsed : ∀ (qs : List (List group)),
    (∀ q ∈ qs, ∀ g ∈ q, valid_group g) → ∀ w ∈ all_waits qs, w ≤ (qs.map elapsed).sum
  | [], _, w, hw => by simp [all_waits] at hw
  | q :: qs, hv, w, hw => by
    have h1 := elapsed_nonneg q (hv q (by simp))
    have h2 := sum_elapsed_nonneg qs (fun x hx => hv x (by simp [hx]))
    simp only [all_waits, List.map_cons, List.flatten_cons, List.mem_append] at hw
    simp only [List.map_cons, List.sum_cons]
    rcases hw with hq | hr
    · have := wait_times_le_elapsed q (hv q (by simp)) w hq
      omega
    · have := all_waits_le_sum_elapsed qs (fun x hx => hv x (by simp [hx])) w hr
      omega

/-! ## No overflow for the groups `create_group` makes -/

theorem checked_ok {x : Int} (hx : int_range x) : checked x = .ok x := by
  simp [checked, hx]

theorem proc_time_bounds {g : group} (hg : producible g) :
    1 ≤ proc_time g ∧ proc_time g ≤ 8 := by
  obtain ⟨h1, h2, h3, h4⟩ := hg
  have e : Int.tdiv (1 + g.children) 2 = (1 + g.children) / 2 :=
    Int.tdiv_eq_ediv (by omega) (by decide)
  unfold proc_time
  by_cases hu : g.usa = 0
  · simp only [hu, if_true, e]
    omega
  · simp only [hu, if_false, e]
    omega

theorem proc_time_checked_eq {g : group} (hg : producible g) :
    proc_time_checked g = .ok (proc_time g) := by
  obtain ⟨h1, h2, h3, h4⟩ := hg
  have e : Int.tdiv (1 + g.children) 2 = (1 + g.children) / 2 :=
    Int.tdiv_eq_ediv (by omega) (by decide)
  have c1 : checked (1 + g.children) = .ok (1 + g.children) :=
    checked_ok ⟨by omega, by omega⟩
  have c2 : checked (Int.tdiv (1 + g.children) 2) = .ok (Int.tdiv (1 + g.children) 2) :=
    checked_ok ⟨by rw [e]; omega, by rw [e]; omega⟩
  unfold proc_time_checked proc_time
  by_cases hu : g.usa = 0
  · have c3 : checked (g.adults * 2) = .ok (g.adults * 2) := checked_ok ⟨by omega, by omega⟩
    have c4 : checked (g.adults * 2 + Int.tdiv (1 + g.children) 2)
        = .ok (g.adults * 2 + Int.tdiv (1 + g.children) 2) :=
      checked_ok ⟨by rw [e]; omega, by rw [e]; omega⟩
    simp only [hu, if_true, c1, c2, c3, c4, bind, Except.bind]
  · have c4 : checked (g.adults + Int.tdiv (1 + g.children) 2)
        = .ok (g.adults + Int.tdiv (1 + g.children) 2) :=
      checked_ok ⟨by rw [e]; omega, by rw [e]; omega⟩
    simp only [hu, if_false, c1, c2, c4, bind, Except.bind]

/-- One round of the `while` loop on the head of a queue. -/
theorem while_body_eq {i a : Nat} {s : CalcState} {agt : agent} {g : group} (cur : Int)
    (hi : s.agents[i]? = some agt) (hhd : agt.head = some a)
    (hcell : s.heap[a]? = some (some g)) :
    while_body i s cur
      = .ok ({ heap := s.heap.set a none,
               agents := s.agents.set i { agt with head := g.next },
               report := { s.report with
                 max_wait_time := max_step s.report.max_wait_time cur },
               totalNumberGroupsProcessed := s.totalNumberGroupsProcessed + 1,
               totalWaitTime := s.totalWaitTime + cur },
             cur + proc_time g) := by
  unfold while_body
  simp only [agent_at_of_cell hi, hhd, load_of_cell hcell, dequeue, bind, Except.bind,
    free_of_cell hcell, max_step]
  split_ifs <;> rfl

/-- The range-checked round agrees with it when the counters stay in range. -/
theorem while_body_checked_eq {i a : Nat} {s : CalcState} {agt : agent} {g : group}
    (cur : Int) (hi : s.agents[i]? = some agt) (hhd : agt.head = some a)
    (hcell : s.heap[a]? = some (some g)) (hg : producible g)
    (h1 : int_range (s.totalNumberGroupsProcessed + 1))
    (h2 : int_range (s.totalWaitTime + cur)) (h3 : int_range (cur + proc_time g)) :
    while_body_checked i s cur = while_body i s cur := by
  rw [while_body_eq cur hi hhd hcell]
  unfold while_body_checked
  simp only [agent_at_of_cell hi, hhd, load_of_cell hcell, dequeue, bind, Except.bind,
    free_of_cell hcell, max_step, checked_ok h1, checked_ok h2, proc_time_checked_eq hg,
    checked_ok h3]
  split_ifs <;> rfl

/-- On a queue of groups that `create_group` can make, the range-checked
`while` loop agrees with the plain one as long as the clock and the counters
have room for the queue. -/
theorem while_loop_checked_eq (i : Nat) :
    ∀ (q : List (Nat × group)) (fuel : Nat) (s : CalcState) (cur : Int) (agt : agent),
      s.agents[i]? = some agt → chain s.heap agt.head q → (addrs q).Nodup →
      q.length ≤ fuel → (∀ c ∈ q, producible c.2) →
      0 ≤ cur → cur + 8 * q.length ≤ 800 →
      0 ≤ s.totalNumberGroupsProcessed → s.totalNumberGroupsProcessed + q.length ≤ 1000 →
      0 ≤ s.totalWaitTime → s.totalWaitTime + 800 * q.length ≤ 800000 →
      ∃ s1 cur1, while_loop_checked i fuel s cur = .ok (s1, cur1)
        ∧ while_loop i fuel s cur = .ok (s1, cur1)
        ∧ 0 ≤ cur1 ∧ cur1 ≤ cur + 8 * q.length
        ∧ s1.totalNumberGroupsProcessed = s.totalNumberGroupsProcessed + q.length
        ∧ s.totalWaitTime ≤ s1.totalWaitTime
        ∧ s1.totalWaitTime ≤ s.totalWaitTime + 800 * q.length
        ∧ s1.report.total_time = s.report.total_time
        ∧ s1.report.total_payroll = s.report.total_payroll
  | [], fuel, s, cur, agt, hi, hch, _, _, _, hc0, _, _, _, _, _ => by
    unfold chain at hch
    refine ⟨s, cur, ?_, ?_, hc0, by simp, by simp, le_refl _, by simp, rfl, rfl⟩
    · cases fuel <;> simp [while_loop_checked, agent_at_of_cell hi, hch]
    · cases fuel <;> simp [while_loop, agent_at_of_cell hi, hch]
  | c :: rest, 0, _, _, _, _, _, _, hf, _, _, _, _, _, _, _ => by simp at hf
  | c :: rest, fuel + 1, s, cur, agt, hi, hch, hnd, hf, hv, hc0, hc1, hn0, hn1, hw0, hw1 => by
    unfold chain at hch
    have hnd1 : c.1 ∉ addrs rest ∧ (addrs rest).Nodup := by
      simpa [addrs] using hnd
    have hilt : i < s.agents.length := by
      rcases List.getElem?_eq_some.mp hi with ⟨hlt, _⟩
      exact hlt
    have hpt := proc_time_bounds (hv c (by simp))
    simp only [List.length_cons, Nat.cast_add, Nat.cast_one] at hc1 hn1 hw1
    have hbody := while_body_eq cur hi hch.1 hch.2.1
    have hbodyc := while_body_checked_eq cur hi hch.1 hch.2.1 (hv c (by simp))
      ⟨by omega, by omega⟩ ⟨by omega, by omega⟩ ⟨by omega, by omega⟩
    have hi1 : (s.agents.set i { agt with head := c.2.next })[i]?
        = some { agt with head := c.2.next } := by
      simp [List.getElem?_set, hilt]
    obtain ⟨s1, cur1, hcl, hul, b1, b2, b3, b4, b5, b6, b7⟩ :=
      while_loop_checked_eq i rest fuel
        { heap := s.heap.set c.1 none,
          agents := s.agents.set i { agt with head := c.2.next },
          report := { s.report with max_wait_time := max_step s.report.max_wait_time cur },
          totalNumberGroupsProcessed := s.totalNumberGroupsProcessed + 1,
          totalWaitTime := s.totalWaitTime + cur }
        (cur + proc_time c.2) { agt with head := c.2.next } hi1
        (chain_set_of_not_mem none rest c.2.next hch.2.2 hnd1.1) hnd1.2
        (by simpa using hf) (fun x hx => hv x (by simp [hx]))
        (by omega) (by omega) (by simp only; omega) (by simp only; omega)
        (by simp only; omega) (by simp only; omega)
    simp only at b3 b4 b5 b6 b7
    refine ⟨s1, cur1, ?_, ?_, b1, ?_, ?_, ?_, ?_, b6, b7⟩
    · unfold while_loop_checked
      simp only [agent_at_of_cell hi, hch.1, hbodyc, hbody, hcl]
    · unfold while_loop
      simp only [agent_at_of_cell hi, hch.1, hbody, hul]
    · simp only [List.length_cons, Nat.cast_add, Nat.cast_one]
      omega
    · simp only [List.length_cons, Nat.cast_add, Nat.cast_one]
      omega
    · omega
    · simp only [List.length_cons, Nat.cast_add, Nat.cast_one]
      omega

theorem add_pay_checked_eq {p e : Int} (hp0 : 0 ≤ p) (hp1 : p ≤ 3100) (he0 : 0 ≤ e)
    (he1 : e ≤ 800) :
    add_pay_checked p e = .ok (add_pay p e) ∧ p ≤ add_pay p e ∧ add_pay p e ≤ p + 310 := by
  have eh : Int.tdiv e 60 = e / 60 := Int.tdiv_eq_ediv he0 (by decide)
  have c0 : checked (Int.tdiv e 60) = .ok (Int.tdiv e 60) :=
    checked_ok ⟨by rw [eh]; omega, by rw [eh]; omega⟩
  unfold add_pay_checked add_pay
  simp only [c0, bind, Except.bind]
  by_cases hh : Int.tdiv e 60 > 8
  · have c1 : checked (Int.tdiv e 60 - 8) = .ok (Int.tdiv e 60 - 8) :=
      checked_ok ⟨by rw [eh]; omega, by rw [eh]; omega⟩
    have c2 : checked (30 * (Int.tdiv e 60 - 8)) = .ok (30 * (Int.tdiv e 60 - 8)) :=
      checked_ok ⟨by rw [eh]; omega, by rw [eh]; omega⟩
    have c3 : checked (p + 30 * (Int.tdiv e 60 - 8)) = .ok (p + 30 * (Int.tdiv e 60 - 8)) :=
      checked_ok ⟨by rw [eh]; omega, by rw [eh]; omega⟩
    have c4 : checked (20 * 8) = .ok (20 * 8) := checked_ok ⟨by decide, by decide⟩
    have c5 : checked (p + 30 * (Int.tdiv e 60 - 8) + 20 * 8)
        = .ok (p + 30 * (Int.tdiv e 60 - 8) + 20 * 8) :=
      checked_ok ⟨by rw [eh]; omega, by rw [eh]; omega⟩
    simp only [hh, if_true, c1, c2, c3, c4, c5, true_and]
    rw [eh] at hh ⊢
    omega
  · have c1 : checked (20 * Int.tdiv e 60) = .ok (20 * Int.tdiv e 60) :=
      checked_ok ⟨by rw [eh]; omega, by rw [eh]; omega⟩
    have c2 : checked (p + 20 * Int.tdiv e 60) = .ok (p + 20 * Int.tdiv e 60) :=
      checked_ok ⟨by rw [eh]; omega, by rw [eh]; omega⟩
    simp only [hh, if_false, c1, c2, true_and]
    rw [eh] at hh ⊢
    omega

theorem next_index_eq {i : Nat} (hi : i ≤ 10) : next_index i = .ok (i + 1) := by
  have hc : checked ((i : Int) + 1) = .ok ((i : Int) + 1) := checked_ok ⟨by omega, by omega⟩
  unfold next_index
  rw [hc]
  rfl

theorem for_loop_checked_succ {fuel k i : Nat} {s s1 : CalcState}
    (hb : for_body_checked fuel i s = .ok s1) (hi : i ≤ 10) :
    for_loop_checked fuel (k + 1) i s = for_loop_checked fuel k (i + 1) s1 := by
  rw [for_loop_checked, hb, next_index_eq hi]
  rfl

/-- One round of the range-checked `for` loop agrees with the plain one for a
queue of at most 100 groups that `create_group` can make. -/
theorem for_body_checked_eq (fuel i : Nat) (s : CalcState) (agt : agent)
    (q : List (Nat × group)) (hi : s.agents[i]? = some agt)
    (hch : chain s.heap agt.head q) (hnd : (addrs q).Nodup) (hf : q.length ≤ fuel)
    (hv : ∀ c ∈ q, producible c.2) (hlen : q.length ≤ 100)
    (hn0 : 0 ≤ s.totalNumberGroupsProcessed) (hn1 : s.totalNumberGroupsProcessed + 100 ≤ 1000)
    (hw0 : 0 ≤ s.totalWaitTime) (hw1 : s.totalWaitTime + 80000 ≤ 800000)
    (ht0 : 0 ≤ s.report.total_time) (ht1 : s.report.total_time + 800 ≤ 8000)
    (hp0 : 0 ≤ s.report.total_payroll) (hp1 : s.report.total_payroll + 310 ≤ 3100) :
    ∃ s1, for_body_checked fuel i s = .ok s1 ∧ for_body fuel i s = .ok s1
      ∧ s.totalNumberGroupsProcessed ≤ s1.totalNumberGroupsProcessed
      ∧ s1.totalNumberGroupsProcessed ≤ s.totalNumberGroupsProcessed + 100
      ∧ s.totalWaitTime ≤ s1.totalWaitTime ∧ s1.totalWaitTime ≤ s.totalWaitTime + 80000
      ∧ s.report.total_time ≤ s1.report.total_time
      ∧ s1.report.total_time ≤ s.report.total_time + 800
      ∧ s.report.total_payroll ≤ s1.report.total_payroll
      ∧ s1.report.total_payroll ≤ s.report.total_payroll + 310 := by
  have hl : (q.length : Int) ≤ 100 := by exact_mod_cast hlen
  obtain ⟨s1, cur1, hcl, hul, b1, b2, b3, b4, b5, b6, b7⟩ :=
    while_loop_checked_eq i q fuel s 0 agt hi hch hnd hf hv (le_refl _) (by omega) hn0
      (by omega) hw0 (by omega)
  have hpay := add_pay_checked_eq (p := s1.report.total_payroll) (e := cur1)
    (by omega) (by omega) b1 (by omega)
  have ct : checked (s1.report.total_time + cur1) = .ok (s1.report.total_time + cur1) :=
    checked_ok ⟨by omega, by omega⟩
  refine ⟨{ s1 with report :=
      { s1.report with total_time := s1.report.total_time + cur1,
                       total_payroll := add_pay s1.report.total_payroll cur1 } },
    ?_, ?_, ?_, ?_, ?_, ?_, ?_, ?_, ?_, ?_⟩
  · unfold for_body_checked
    simp only [hcl, ct, hpay.1, bind, Except.bind]
  · unfold for_body
    simp only [hul, bind, Except.bind]
  all_goals simp only
  all_goals omega

/-- The range-checked `for` loop agrees with the plain one for at most ten
queues of at most 100 groups each that `create_group` can make; `k` is the
number of queues still to serve. -/
theorem for_loop_checked_eq (fuel : Nat) :
    ∀ (qs : List (List (Nat × group))) (rest pre : List agent) (s : CalcState) (k : Int),
      k = qs.length →
      s.agents = pre ++ rest → lines s.heap rest qs → (addrs qs.flatten).Nodup →
      (∀ q ∈ qs, q.length ≤ fuel) → (∀ q ∈ qs, ∀ c ∈ q, producible c.2) →
      (∀ q ∈ qs, q.length ≤ 100) → pre.length + k ≤ 10 →
      0 ≤ s.totalNumberGroupsProcessed → s.totalNumberGroupsProcessed + 100 * k ≤ 1000 →
      0 ≤ s.totalWaitTime → s.totalWaitTime + 80000 * k ≤ 800000 →
      0 ≤ s.report.total_time → s.report.total_time + 800 * k ≤ 8000 →
      0 ≤ s.report.total_payroll → s.report.total_payroll + 310 * k ≤ 3100 →
      ∃ s1, for_loop_checked fuel qs.length pre.length s = .ok s1
        ∧ for_loop fuel qs.length pre.length s = .ok s1
        ∧ 0 ≤ s1.totalNumberGroupsProcessed ∧ s1.totalNumberGroupsProcessed ≤ 1000
        ∧ 0 ≤ s1.totalWaitTime ∧ s1.totalWaitTime ≤ 800000 := by
  intro qs
  induction qs with
  | nil =>
    intro rest pre s k hk _ hl _ _ _ _ _ hn0 hn1 hw0 hw1 _ _ _ _
    cases rest with
    | nil =>
      simp only [List.length_nil, Nat.cast_zero] at hk
      subst hk
      exact ⟨s, rfl, rfl, hn0, by omega, hw0, by omega⟩
    | cons _ _ =>
      unfold lines at hl
      exact hl.elim
  | cons q qs ih =>
    intro rest pre s k hk hs hl hnd hf hv hlen hpk hn0 hn1 hw0 hw1 ht0 ht1 hp0 hp1
    cases rest with
    | nil =>
      unfold lines at hl
      exact hl.elim
    | cons agt rest =>
      unfold lines at hl
      have hk1 : k - 1 = qs.length := by
        rw [hk, List.length_cons]
        push_cast
        omega
      have hkpos : 0 ≤ k - 1 := by
        rw [hk1]
        exact Int.ofNat_nonneg _
      have hi : s.agents[pre.length]? = some agt := by
        rw [hs, List.getElem?_append_right (le_refl _)]
        simp
      have hnd0 : (addrs q ++ addrs qs.flatten).Nodup := by
        simpa [addrs] using hnd
      have hndq : (addrs q).Nodup := (List.nodup_append.mp hnd0).1
      have hndqs : (addrs qs.flatten).Nodup := (List.nodup_append.mp hnd0).2.1
      have hdisj := (List.nodup_append.mp hnd0).2.2
      obtain ⟨s1, hbc, hbu, b1, b2, b3, b4, b5, b6, b7, b8⟩ :=
        for_body_checked_eq fuel pre.length s agt q hi hl.1 hndq (hf q (by simp))
          (hv q (by simp)) (hlen q (by simp)) hn0 (by omega) hw0 (by omega) ht0 (by omega)
          hp0 (by omega)
      have hclosed := for_body_eq fuel pre.length s agt q hi hl.1 hndq (hf q (by simp))
      rw [hbu] at hclosed
      have hs1 := Except.ok.inj hclosed
      have hagents : s1.agents = (pre ++ [served agt]) ++ rest := by
        rw [hs1, hs]
        simp
      have hheap : s1.heap = free_all s.heap (addrs q) := by rw [hs1]
      have hlines : lines s1.heap rest qs := by
        rw [hheap]
        exact lines_free_all (addrs q) s.heap rest qs hl.2 (fun a ha hm => hdisj ha hm)
      have hpre : ((pre ++ [served agt]).length : Int) = pre.length + 1 := by
        rw [List.length_append, List.length_singleton]
        push_cast
        rfl
      obtain ⟨s2, hlc, hlu, c1, c2, c3, c4⟩ :=
        ih rest (pre ++ [served agt]) s1 (k - 1) hk1 hagents hlines hndqs
          (fun q1 hq1 => hf q1 (by simp [hq1])) (fun q1 hq1 => hv q1 (by simp [hq1]))
          (fun q1 hq1 => hlen q1 (by simp [hq1]))
          (by rw [hpre]; omega)
          (by omega) (by omega) (by omega) (by omega) (by omega) (by omega) (by omega) (by omega)
      simp only [List.length_append, List.length_singleton] at hlc hlu
      refine ⟨s2, ?_, ?_, c1, c2, c3, c4⟩
      · rw [List.length_cons, for_loop_checked_succ hbc (by omega), hlc]
      · rw [List.length_cons, for_loop]
        simp only [hbu, hlu]

theorem elapsed_le_of_producible : ∀ (q : List group), (∀ g ∈ q, producible g) →
    elapsed q ≤ 8 * q.length
  | [], _ => by simp [elapsed]
  | g :: gs, hv => by
    have h1 := (proc_time_bounds (hv g (by simp))).2
    have h2 := elapsed_le_of_producible gs (fun x hx => hv x (by simp [hx]))
    rw [elapsed_cons]
    simp only [List.length_cons, Nat.cast_add, Nat.cast_one]
    omega

theorem create_group_producible {r1 r2 r3 r4 : Int} (h1 : 0 ≤ r1) (h2 : 0 ≤ r2)
    (h3 : 0 ≤ r3) : producible (create_group r1 r2 r3 r4) := by
  have e1 : Int.tmod r1 3 = r1 % 3 := Int.tmod_eq_emod h1 (by decide)
  have e2 : Int.tmod r2 4 = r2 % 4 := Int.tmod_eq_emod h2 (by decide)
  have e3 : Int.tmod r3 4 = r3 % 4 := Int.tmod_eq_emod h3 (by decide)
  simp only [producible, create_group, e1, e2, e3]
  refine ⟨by omega, by omega, ?_, ?_⟩
  · split_ifs <;> omega
  · split_ifs <;> omega

theorem nth_group_producible (rand : Nat → Int) (hr : ∀ n, 0 ≤ rand n) (i : Nat) :
    producible (nth_group rand i) :=
  create_group_producible (hr _) (hr _) (hr _)

theorem length_le_total_groups : ∀ (qs : List (List (Nat × group))), ∀ q ∈ qs,
    q.length ≤ total_groups (qs.map groups)
  | [], q, hq => by simp at hq
  | q0 :: qs, q, hq => by
    simp only [total_groups, List.map_cons, List.sum_cons, groups, List.length_map]
    rcases List.mem_cons.mp hq with e | hm
    · rw [e]
      omega
    · have := length_le_total_groups qs q hm
      simp only [total_groups, groups, List.map_map] at this
      simp only [List.map_map]
      omega

/-- C16: a group that `create_group` can make (one to three adults, at most
four children, any citizenship) takes at most 8 minutes.  Hence for at most
ten agents with separate, well-formed queues of at most 100 such groups each
(the compiled constants give ten queues of 100), every agent's elapsed time is
at most 800 minutes, and `calc_time` with every arithmetic result checked
against the range of a 32-bit `int` runs without a fault and returns what the
plain `calc_time` returns: no `int` arithmetic overflows. -/
theorem calc_time_no_overflow (fuel : Nat) (h : Heap) (agents : List agent)
    (qs : List (List (Nat × group))) (hw : separate_lines h agents qs)
    (hf : ∀ q ∈ qs, q.length ≤ fuel) (hpos : 0 < total_groups (qs.map groups))
    (hn : qs.length ≤ 10) (hlen : ∀ q ∈ qs, q.length ≤ 100)
    (hv : ∀ q ∈ qs, ∀ c ∈ q, producible c.2) :
    (∀ g : group, producible g → proc_time g ≤ 8)
      ∧ (∀ q ∈ qs, elapsed (groups q) ≤ 800)
      ∧ ∃ r h1 agents1, calc_time_checked fuel agents.length h agents = .ok (r, h1, agents1)
          ∧ calc_time fuel agents.length h agents = .ok (r, h1, agents1) := by
  refine ⟨fun g hg => (proc_time_bounds hg).2, ?_, ?_⟩
  · intro q hq
    have h1 := elapsed_le_of_producible (groups q) (by
      intro g hg
      obtain ⟨c, hc, e⟩ := List.mem_map.mp hg
      rw [← e]
      exact hv q hq c hc)
    have h2 : ((groups q).length : Int) ≤ 100 := by
      simp only [groups, List.length_map]
      exact_mod_cast hlen q hq
    omega
  · have hlenq := lines_length h agents qs hw.1
    have hk : (qs.length : Int) ≤ 10 := by exact_mod_cast hn
    obtain ⟨s1, hlc, hlu, c1, c2, c3, c4⟩ :=
      for_loop_checked_eq fuel qs agents []
        { heap := h, agents := agents,
          report :=
            { max_wait_time := 0, total_payroll := 0, total_time := 0, avg_wait_time := 0 },
          totalNumberGroupsProcessed := 0, totalWaitTime := 0 }
        qs.length rfl (by simp) hw.1 hw.2 hf hv hlen
        (by simp only [List.length_nil, Nat.cast_zero]; omega)
        (le_refl _) (by simp only; omega) (le_refl _) (by simp only; omega)
        (le_refl _) (by simp only; omega) (le_refl _) (by simp only; omega)
    have hclosed := for_loop_eq fuel qs agents []
      { heap := h, agents := agents,
        report :=
          { max_wait_time := 0, total_payroll := 0, total_time := 0, avg_wait_time := 0 },
        totalNumberGroupsProcessed := 0, totalWaitTime := 0 }
      (by simp) hw.1 hw.2 hf
    rw [hlu] at hclosed
    have hs1 := Except.ok.inj hclosed
    have htot : s1.totalNumberGroupsProcessed = total_groups (qs.map groups) := by
      rw [hs1]
      simp
    have hne : ¬ s1.totalNumberGroupsProcessed = 0 := by
      rw [htot]
      omega
    have hdiv : Int.tdiv s1.totalWaitTime s1.totalNumberGroupsProcessed
        = s1.totalWaitTime / s1.totalNumberGroupsProcessed := Int.tdiv_eq_ediv c3 c1
    have hd0 : 0 ≤ s1.totalWaitTime / s1.totalNumberGroupsProcessed := Int.ediv_nonneg c3 c1
    have hd1 : s1.totalWaitTime / s1.totalNumberGroupsProcessed ≤ s1.totalWaitTime :=
      Int.ediv_le_self _ c3
    have hchk : checked (Int.tdiv s1.totalWaitTime s1.totalNumberGroupsProcessed)
        = .ok (Int.tdiv s1.totalWaitTime s1.totalNumberGroupsProcessed) :=
      checked_ok ⟨by rw [hdiv]; omega, by rw [hdiv]; omega⟩
    simp only [List.length_nil, ← hlenq] at hlc hlu
    refine ⟨{ s1.report with
        avg_wait_time := Int.tdiv s1.totalWaitTime s1.totalNumberGroupsProcessed },
      s1.heap, s1.agents, ?_, ?_⟩
    · unfold calc_time_checked
      simp only [Int.toNat_ofNat, hlc, bind, Except.bind, hne, if_false, hchk]
    · unfold calc_time
      simp only [Int.toNat_ofNat, hlu, bind, Except.bind, hne, if_false]

/-- Two instances.  Two agents with queues of 8 + 2 + 1 and of 4 minutes: the
range-checked run returns the report of the plain one.  And the program
itself with its compiled constants, 10 agents and 1000 groups, `rand()`
counting upwards: the queues `main` builds are served without a fault by the
range-checked `calc_time`, with the result of the plain one. -/
theorem calc_time_no_overflow_witness :
    (∃ r h1 agents1,
        calc_time_checked 3 2
            [some (group.mk 3 4 0 (some 1) none), some (group.mk 2 0 1 (some 2) none),
              some (group.mk 1 0 1 none none), some (group.mk 3 1 1 none none)]
            [agent.mk 0 0 (some 0) (some 2), agent.mk 0 0 (some 3) (some 3)]
          = .ok (r, h1, agents1)
        ∧ calc_time 3 2
            [some (group.mk 3 4 0 (some 1) none), some (group.mk 2 0 1 (some 2) none),
              some (group.mk 1 0 1 none none), some (group.mk 3 1 1 none none)]
            [agent.mk 0 0 (some 0) (some 2), agent.mk 0 0 (some 3) (some 3)]
          = .ok (r, h1, agents1))
      ∧ ∃ h agents r h1 agents1,
          main_setup (fun n => (n : Int)) 10 1000 = .ok (h, agents)
          ∧ calc_time_checked 100 10 h agents = .ok (r, h1, agents1)
          ∧ calc_time 100 10 h agents = .ok (r, h1, agents1) := by
  constructor
  · exact (calc_time_no_overflow 3
      [some (group.mk 3 4 0 (some 1) none), some (group.mk 2 0 1 (some 2) none),
        some (group.mk 1 0 1 none none), some (group.mk 3 1 1 none none)]
      [agent.mk 0 0 (some 0) (some 2), agent.mk 0 0 (some 3) (some 3)]
      [[(0, group.mk 3 4 0 (some 1) none), (1, group.mk 2 0 1 (some 2) none),
          (2, group.mk 1 0 1 none none)],
        [(3, group.mk 3 1 1 none none)]]
      (by decide) (by decide) (by decide) (by decide) (by decide) (by decide)).2.2
  · obtain ⟨h, agents, qs, hrun, hal, hql, hsep, _, hcont, hlenq⟩ :=
      main_setup_queues (fun n => (n : Int)) 10 1000 (by decide)
    have hlen : ∀ q ∈ qs, q.length = 100 := by
      intro q hq
      obtain ⟨j, _, e⟩ := hlenq q hq
      rw [e]
      simp
    have hv : ∀ q ∈ qs, ∀ c ∈ q, producible c.2 := by
      intro q hq c hc
      have he := hcont q hq c hc
      have hp := nth_group_producible (fun n => (n : Int)) (fun n => Int.ofNat_nonneg n) c.1
      rw [← he] at hp
      exact hp
    have hpos : 0 < total_groups (qs.map groups) := by
      obtain ⟨q0, hq0⟩ := List.exists_mem_of_length_pos (l := qs) (by omega)
      have h1 := length_le_total_groups qs q0 hq0
      have h2 := hlen q0 hq0
      omega
    obtain ⟨_, _, r, h1, agents1, hc, hu⟩ :=
      calc_time_no_overflow 100 h agents qs hsep (fun q hq => by rw [hlen q hq]) hpos
        (by omega) (fun q hq => by rw [hlen q hq]) hv
    simp only [hal, Nat.cast_ofNat] at hc hu
    exact ⟨h, agents, r, h1, agents1, hrun, hc, hu⟩

/-! ## Runs within the range of `int` -/

theorem checked_inv {x v : Int} (h : checked x = .ok v) : v = x ∧ int_range x := by
  unfold checked at h
  split at h
  · next hr => exact ⟨(Except.ok.inj h).symm, hr⟩
  · simp at h

theorem bind_ok {α β : Type} {x : Except Fault α} {f : α → Except Fault β} {b : β}
    (h : (x >>= f) = .ok b) : ∃ a, x = .ok a ∧ f a = .ok b := by
  cases x with
  | error e => simp [bind, Except.bind] at h
  | ok a => exact ⟨a, rfl, h⟩

/-- A group whose fields let `proc_time` run without overflow: the operations
`2 * adults` (foreign group), `1 + children` and the final sum stay in the
range of `int`. -/
theorem proc_time_checked_of_range {g : group} (ha : 1 ≤ g.adults) (hc : 0 ≤ g.children)
    (hc1 : g.children ≤ 2147483646) (hp : proc_time g ≤ 2147483647) :
    proc_time_checked g = .ok (proc_time g) := by
  have e : Int.tdiv (1 + g.children) 2 = (1 + g.children) / 2 :=
    Int.tdiv_eq_ediv (by omega) (by decide)
  have c1 : checked (1 + g.children) = .ok (1 + g.children) :=
    checked_ok ⟨by omega, by omega⟩
  have c2 : checked (Int.tdiv (1 + g.children) 2) = .ok (Int.tdiv (1 + g.children) 2) :=
    checked_ok ⟨by rw [e]; omega, by rw [e]; omega⟩
  unfold proc_time at hp
  unfold proc_time_checked proc_time
  by_cases hu : g.usa = 0
  · simp only [hu, if_true, e] at hp
    have c3 : checked (g.adults * 2) = .ok (g.adults * 2) := checked_ok ⟨by omega, by omega⟩
    have c4 : checked (g.adults * 2 + Int.tdiv (1 + g.children) 2)
        = .ok (g.adults * 2 + Int.tdiv (1 + g.children) 2) :=
      checked_ok ⟨by rw [e]; omega, by rw [e]; omega⟩
    simp only [hu, if_true, c1, c2, c3, c4, bind, Except.bind]
  · simp only [hu, if_false, e] at hp
    have c4 : checked (g.adults + Int.tdiv (1 + g.children) 2)
        = .ok (g.adults + Int.tdiv (1 + g.children) 2) :=
      checked_ok ⟨by rw [e]; omega, by rw [e]; omega⟩
    simp only [hu, if_false, c1, c2, c4, bind, Except.bind]

theorem proc_time_checked_inv {g : group} {v : Int} (h : proc_time_checked g = .ok v) :
    v = proc_time g := by
  unfold proc_time_checked at h
  unfold proc_time
  by_cases hu : g.usa = 0
  · simp only [hu, if_true] at h ⊢
    obtain ⟨a, h1, h⟩ := bind_ok h
    obtain ⟨b, h2, h⟩ := bind_ok h
    obtain ⟨c, h3, h⟩ := bind_ok h
    have e1 := (checked_inv h1).1
    have e2 := (checked_inv h2).1
    have e3 := (checked_inv h3).1
    have e4 := (checked_inv h).1
    rw [e4, e3, e2, e1]
  · simp only [hu, if_false] at h ⊢
    obtain ⟨a, h1, h⟩ := bind_ok h
    obtain ⟨b, h2, h⟩ := bind_ok h
    obtain ⟨c, h3, h⟩ := bind_ok h
    have e1 : a = g.adults := (Except.ok.inj h1).symm
    have e2 := (checked_inv h2).1
    have e3 := (checked_inv h3).1
    have e4 := (checked_inv h).1
    rw [e4, e3, e2, e1]

/-- A round of the range-checked `while` loop that returns is a round of the
plain loop with the same result. -/
theorem while_body_checked_inv {i : Nat} {s : CalcState} {cur : Int} {x : CalcState × Int}
    (h : while_body_checked i s cur = .ok x) : while_body i s cur = .ok x := by
  unfold while_body_checked at h
  obtain ⟨total, h1, h⟩ := bind_ok h
  obtain ⟨totalWait, h2, h⟩ := bind_ok h
  obtain ⟨agt, h3, h⟩ := bind_ok h
  obtain ⟨hd, h4, h⟩ := bind_ok h
  obtain ⟨time, h5, h⟩ := bind_ok h
  obtain ⟨cur1, h6, h⟩ := bind_ok h
  obtain ⟨⟨temp, agt1⟩, h7, h⟩ := bind_ok h
  obtain ⟨heap, h8, h⟩ := bind_ok h
  have e1 := (checked_inv h1).1
  have e2 := (checked_inv h2).1
  have e5 := proc_time_checked_inv h5
  have e6 := (checked_inv h6).1
  subst e1 e2 e5 e6
  unfold while_body
  simp only [h3, h4, h7, h8, bind, Except.bind]
  exact h

theorem while_loop_checked_inv (i : Nat) :
    ∀ (fuel : Nat) (s : CalcState) (cur : Int) (x : CalcState × Int),
      while_loop_checked i fuel s cur = .ok x → while_loop i fuel s cur = .ok x
  | 0, s, cur, x, h => by
    unfold while_loop_checked at h
    unfold while_loop
    exact h
  | fuel + 1, s, cur, x, h => by
    unfold while_loop_checked at h
    unfold while_loop
    cases hat : agent_at s.agents i with
    | error e => simp [hat] at h
    | ok agt =>
      simp only [hat] at h ⊢
      cases hh : agt.head with
      | none =>
        simp only [hh] at h ⊢
        exact h
      | some a =>
        simp only [hh] at h ⊢
        cases hb : while_body_checked i s cur with
        | error e => simp [hb] at h
        | ok y =>
          simp only [hb] at h
          simp only [while_body_checked_inv hb]
          exact while_loop_checked_inv i fuel y.1 y.2 x h

theorem add_pay_checked_inv {p e v : Int} (h : add_pay_checked p e = .ok v) :
    v = add_pay p e := by
  unfold add_pay_checked at h
  obtain ⟨hours, h1, h⟩ := bind_ok h
  have e1 := (checked_inv h1).1
  subst e1
  unfold add_pay
  by_cases hh : Int.tdiv e 60 > 8
  · simp only [hh, if_true] at h ⊢
    obtain ⟨a, h2, h⟩ := bind_ok h
    obtain ⟨b, h3, h⟩ := bind_ok h
    obtain ⟨c, h4, h⟩ := bind_ok h
    obtain ⟨d, h5, h⟩ := bind_ok h
    rw [(checked_inv h).1, (checked_inv h5).1, (checked_inv h4).1, (checked_inv h3).1,
      (checked_inv h2).1]
  · simp only [hh, if_false] at h ⊢
    obtain ⟨a, h2, h⟩ := bind_ok h
    rw [(checked_inv h).1, (checked_inv h2).1]

theorem for_body_checked_inv {fuel i : Nat} {s x : CalcState}
    (h : for_body_checked fuel i s = .ok x) : for_body fuel i s = .ok x := by
  unfold for_body_checked at h
  obtain ⟨⟨s1, cur1⟩, h1, h⟩ := bind_ok h
  obtain ⟨tt, h2, h⟩ := bind_ok h
  obtain ⟨pay, h3, h⟩ := bind_ok h
  have e2 := (checked_inv h2).1
  have e3 := add_pay_checked_inv h3
  subst e2 e3
  unfold for_body
  simp only [while_loop_checked_inv i fuel s 0 _ h1, bind, Except.bind]
  exact h

theorem next_index_inv {i j : Nat} (h : next_index i = .ok j) : j = i + 1 := by
  unfold next_index at h
  obtain ⟨_, _, h⟩ := bind_ok h
  exact (Except.ok.inj h).symm

theorem for_loop_checked_inv (fuel : Nat) :
    ∀ (k i : Nat) (s x : CalcState),
      for_loop_checked fuel k i s = .ok x → for_loop fuel k i s = .ok x
  | 0, _, _, _, h => h
  | k + 1, i, s, x, h => by
    rw [for_loop_checked] at h
    obtain ⟨s1, h1, h⟩ := bind_ok h
    obtain ⟨j, h2, h⟩ := bind_ok h
    have e := next_index_inv h2
    subst e
    rw [for_loop]
    simp only [for_body_checked_inv h1]
    exact for_loop_checked_inv fuel k (i + 1) s1 x h

/-- A run of the range-checked `calc_time` that returns is a run of the plain
`calc_time` with the same result. -/
theorem calc_time_checked_inv {fuel : Nat} {num_agents : Int} {heap : Heap}
    {agents : List agent} {x : stats × Heap × List agent}
    (h : calc_time_checked fuel num_agents heap agents = .ok x) :
    calc_time fuel num_agents heap agents = .ok x := by
  unfold calc_time_checked at h
  obtain ⟨s, h1, h⟩ := bind_ok h
  unfold calc_time
  simp only [for_loop_checked_inv fuel _ _ _ _ h1, bind, Except.bind]
  by_cases h0 : s.totalNumberGroupsProcessed = 0
  · simp [h0] at h
  · simp only [h0, if_false] at h ⊢
    obtain ⟨avg, h2, h⟩ := bind_ok h
    have e := (checked_inv h2).1
    subst e
    exact h

theorem waits_from_sum_nonneg : ∀ (q : List group) (cur : Int), 0 ≤ cur →
    (∀ g ∈ q, valid_group g) → 0 ≤ (waits_from cur q).sum
  | [], _, _, _ => by simp [waits_from]
  | g :: gs, cur, hc, hv => by
    have h1 := proc_time_nonneg (hv g (by simp))
    have h2 := waits_from_sum_nonneg gs (cur + proc_time g) (by omega)
      (fun x hx => hv x (by simp [hx]))
    simp only [waits_from, List.sum_cons]
    omega

theorem while_body_checked_eq_of {i a : Nat} {s : CalcState} {agt : agent} {g : group}
    (cur : Int) (hi : s.agents[i]? = some agt) (hhd : agt.head = some a)
    (hcell : s.heap[a]? = some (some g)) (hg : proc_time_checked g = .ok (proc_time g))
    (h1 : int_range (s.totalNumberGroupsProcessed + 1))
    (h2 : int_range (s.totalWaitTime + cur)) (h3 : int_range (cur + proc_time g)) :
    while_body_checked i s cur = while_body i s cur := by
  rw [while_body_eq cur hi hhd hcell]
  unfold while_body_checked
  simp only [agent_at_of_cell hi, hhd, load_of_cell hcell, dequeue, bind, Except.bind,
    free_of_cell hcell, max_step, checked_ok h1, checked_ok h2, hg, checked_ok h3]
  split_ifs <;> rfl

/-- On a queue of groups with at least one adult and fewer than `INT_MAX`
children, the range-checked `while` loop agrees with the plain one when the
clock, the group count and the total wait it ends with fit an `int`; `n` is
the length of the queue. -/
theorem while_loop_checked_of_fits (i : Nat) :
    ∀ (q : List (Nat × group)) (fuel : Nat) (s : CalcState) (cur : Int) (agt : agent)
      (n : Int), n = q.length →
      s.agents[i]? = some agt → chain s.heap agt.head q → (addrs q).Nodup →
      q.length ≤ fuel → (∀ c ∈ q, valid_group c.2 ∧ c.2.children ≤ 2147483646) →
      0 ≤ cur → cur + elapsed (groups q) ≤ 2147483647 →
      0 ≤ s.totalNumberGroupsProcessed → s.totalNumberGroupsProcessed + n ≤ 2147483647 →
      0 ≤ s.totalWaitTime → s.totalWaitTime + (waits_from cur (groups q)).sum ≤ 2147483647 →
      while_loop_checked i fuel s cur = while_loop i fuel s cur := by
  intro q
  induction q with
  | nil =>
    intro fuel s cur agt n _ hi hch _ _ _ _ _ _ _ _ _
    unfold chain at hch
    cases fuel <;> simp [while_loop_checked, while_loop, agent_at_of_cell hi, hch]
  | cons c rest ih =>
    intro fuel s cur agt n hn hi hch hnd hf hv hc0 hc1 hn0 hn1 hw0 hw1
    cases fuel with
    | zero => simp at hf
    | succ fuel =>
      unfold chain at hch
      have hnd1 : c.1 ∉ addrs rest ∧ (addrs rest).Nodup := by
        simpa [addrs] using hnd
      have hilt : i < s.agents.length := by
        rcases List.getElem?_eq_some.mp hi with ⟨hlt, _⟩
        exact hlt
      have hvc := hv c (by simp)
      have hvr : ∀ g ∈ groups rest, valid_group g := by
        intro g hg
        obtain ⟨d, hd, e⟩ := List.mem_map.mp hg
        rw [← e]
        exact (hv d (by simp [hd])).1
      have hp0 := proc_time_nonneg hvc.1
      have he0 := elapsed_nonneg (groups rest) hvr
      have hws0 := waits_from_sum_nonneg (groups rest) (cur + proc_time c.2) (by omega) hvr
      have hn1' : n - 1 = rest.length := by
        rw [hn, List.length_cons]
        push_cast
        omega
      have hnr : 0 ≤ n - 1 := by
        rw [hn1']
        exact Int.ofNat_nonneg _
      have hcons : groups (c :: rest) = c.2 :: groups rest := rfl
      rw [hcons, elapsed_cons] at hc1
      rw [hcons] at hw1
      simp only [waits_from, List.sum_cons] at hw1
      have hg := proc_time_checked_of_range hvc.1.1 hvc.1.2 hvc.2 (by omega)
      have hbody := while_body_eq cur hi hch.1 hch.2.1
      have hbodyc := while_body_checked_eq_of cur hi hch.1 hch.2.1 hg
        ⟨by omega, by omega⟩ ⟨by omega, by omega⟩ ⟨by omega, by omega⟩
      have hi1 : (s.agents.set i { agt with head := c.2.next })[i]?
          = some { agt with head := c.2.next } := by
        simp [List.getElem?_set, hilt]
      have hrec := ih fuel
        { heap := s.heap.set c.1 none,
          agents := s.agents.set i { agt with head := c.2.next },
          report := { s.report with max_wait_time := max_step s.report.max_wait_time cur },
          totalNumberGroupsProcessed := s.totalNumberGroupsProcessed + 1,
          totalWaitTime := s.totalWaitTime + cur }
        (cur + proc_time c.2) { agt with head := c.2.next } (n - 1) hn1' hi1
        (chain_set_of_not_mem none rest c.2.next hch.2.2 hnd1.1) hnd1.2
        (by simpa using hf) (fun x hx => hv x (by simp [hx]))
        (by omega) (by omega) (by simp only; omega) (by simp only; omega)
        (by simp only; omega) (by simp only; omega)
      rw [while_loop_checked, while_loop]
      simp only [agent_at_of_cell hi, hch.1, hbodyc, hbody, hrec]

/-- The range-checked payroll update agrees with the plain one when the
payroll so far plus the elapsed minutes fit an `int`; the pay for `e` minutes
is between 0 and `e`. -/
theorem add_pay_checked_of_fits {p e : Int} (hp0 : 0 ≤ p) (he0 : 0 ≤ e)
    (hpe : p + e ≤ 2147483647) :
    add_pay_checked p e = .ok (add_pay p e) ∧ p ≤ add_pay p e ∧ add_pay p e ≤ p + e := by
  have eh : Int.tdiv e 60 = e / 60 := Int.tdiv_eq_ediv he0 (by decide)
  have c0 : checked (Int.tdiv e 60) = .ok (Int.tdiv e 60) :=
    checked_ok ⟨by rw [eh]; omega, by rw [eh]; omega⟩
  unfold add_pay_checked add_pay
  simp only [c0, bind, Except.bind]
  by_cases hh : Int.tdiv e 60 > 8
  · have hh1 : e / 60 > 8 := by rw [← eh]; exact hh
    have c1 : checked (Int.tdiv e 60 - 8) = .ok (Int.tdiv e 60 - 8) :=
      checked_ok ⟨by rw [eh]; omega, by rw [eh]; omega⟩
    have c2 : checked (30 * (Int.tdiv e 60 - 8)) = .ok (30 * (Int.tdiv e 60 - 8)) :=
      checked_ok ⟨by rw [eh]; omega, by rw [eh]; omega⟩
    have c3 : checked (p + 30 * (Int.tdiv e 60 - 8)) = .ok (p + 30 * (Int.tdiv e 60 - 8)) :=
      checked_ok ⟨by rw [eh]; omega, by rw [eh]; omega⟩
    have c4 : checked (20 * 8) = .ok (20 * 8) := checked_ok ⟨by decide, by decide⟩
    have c5 : checked (p + 30 * (Int.tdiv e 60 - 8) + 20 * 8)
        = .ok (p + 30 * (Int.tdiv e 60 - 8) + 20 * 8) :=
      checked_ok ⟨by rw [eh]; omega, by rw [eh]; omega⟩
    simp only [hh, if_true, c1, c2, c3, c4, c5, true_and]
    rw [eh]
    omega
  · have hh1 : ¬ e / 60 > 8 := by rw [← eh]; exact hh
    have c1 : checked (20 * Int.tdiv e 60) = .ok (20 * Int.tdiv e 60) :=
      checked_ok ⟨by rw [eh]; omega, by rw [eh]; omega⟩
    have c2 : checked (p + 20 * Int.tdiv e 60) = .ok (p + 20 * Int.tdiv e 60) :=
      checked_ok ⟨by rw [eh]; omega, by rw [eh]; omega⟩
    simp only [hh, if_false, c1, c2, true_and]
    rw [eh]
    omega

theorem one_le_proc_time {g : group} (hv : valid_group g) : 1 ≤ proc_time g := by
  have h1 : 0 ≤ Int.tdiv (1 + g.children) 2 := Int.tdiv_nonneg (by omega) (by decide)
  have ha := hv.1
  unfold proc_time
  by_cases hu : g.usa = 0
  · simp only [hu, if_true]
    omega
  · simp only [hu, if_false]
    omega

theorem length_le_elapsed : ∀ (q : List group), (∀ g ∈ q, valid_group g) →
    (q.length : Int) ≤ elapsed q
  | [], _ => by simp [elapsed]
  | g :: gs, hv => by
    have h1 := one_le_proc_time (hv g (by simp))
    have h2 := length_le_elapsed gs (fun x hx => hv x (by simp [hx]))
    rw [elapsed_cons]
    simp only [List.length_cons, Nat.cast_add, Nat.cast_one]
    omega

theorem total_groups_le_sum_elapsed : ∀ (qs : List (List group)),
    (∀ q ∈ qs, ∀ g ∈ q, valid_group g) → (total_groups qs : Int) ≤ (qs.map elapsed).sum
  | [], _ => by simp [total_groups]
  | q :: qs, hv => by
    have h1 := length_le_elapsed q (hv q (by simp))
    have h2 := total_groups_le_sum_elapsed qs (fun x hx => hv x (by simp [hx]))
    simp only [total_groups, List.map_cons, List.sum_cons, Nat.cast_add] at h2 ⊢
    omega

theorem next_index_eq_of {i : Nat} (hi : (i : Int) + 1 ≤ 2147483647) :
    next_index i = .ok (i + 1) := by
  have hc : checked ((i : Int) + 1) = .ok ((i : Int) + 1) := checked_ok ⟨by omega, hi⟩
  unfold next_index
  rw [hc]
  rfl

theorem for_loop_checked_step {fuel k i : Nat} {s s1 : CalcState}
    (hb : for_body_checked fuel i s = .ok s1) (hi : (i : Int) + 1 ≤ 2147483647) :
    for_loop_checked fuel (k + 1) i s = for_loop_checked fuel k (i + 1) s1 := by
  rw [for_loop_checked, hb, next_index_eq_of hi]
  rfl

/-- One round of the range-checked `for` loop agrees with the plain one when
the counters it ends with fit an `int`. -/
theorem for_body_checked_of_fits (fuel i : Nat) (s : CalcState) (agt : agent)
    (q : List (Nat × group)) (hi : s.agents[i]? = some agt)
    (hch : chain s.heap agt.head q) (hnd : (addrs q).Nodup) (hf : q.length ≤ fuel)
    (hv : ∀ c ∈ q, valid_group c.2 ∧ c.2.children ≤ 2147483646)
    (hn0 : 0 ≤ s.totalNumberGroupsProcessed)
    (hn1 : s.totalNumberGroupsProcessed + q.length ≤ 2147483647)
    (hw0 : 0 ≤ s.totalWaitTime)
    (hw1 : s.totalWaitTime + (wait_times (groups q)).sum ≤ 2147483647)
    (ht0 : 0 ≤ s.report.total_time)
    (ht1 : s.report.total_time + elapsed (groups q) ≤ 2147483647)
    (hp0 : 0 ≤ s.report.total_payroll)
    (hp1 : s.report.total_payroll + elapsed (groups q) ≤ 2147483647) :
    for_body_checked fuel i s = for_body fuel i s := by
  have hvg : ∀ g ∈ groups q, valid_group g := by
    intro g hg
    obtain ⟨d, hd, e⟩ := List.mem_map.mp hg
    rw [← e]
    exact (hv d hd).1
  have he0 := elapsed_nonneg (groups q) hvg
  have hwl := while_loop_checked_of_fits i q fuel s 0 agt q.length rfl hi hch hnd hf hv
    (le_refl _) (by omega) hn0 hn1 hw0 (by rw [waits_from_zero]; exact hw1)
  have hcl := while_loop_eq i q fuel s 0 agt hi hch hnd hf
  have hpay := add_pay_checked_of_fits (p := s.report.total_payroll)
    (e := 0 + elapsed (groups q)) hp0 (by omega) (by omega)
  have ct : checked (s.report.total_time + (0 + elapsed (groups q)))
      = .ok (s.report.total_time + (0 + elapsed (groups q))) :=
    checked_ok ⟨by omega, by omega⟩
  unfold for_body_checked for_body
  rw [hwl, hcl]
  simp only [bind, Except.bind, ct, hpay.1]

/-- The range-checked `for` loop agrees with the plain one on queues of groups
with at least one adult and fewer than `INT_MAX` children when the group
count, the total wait, the total time and the loop index it ends with fit an
`int`; `k` is the number of queues still to serve. -/
theorem for_loop_checked_of_fits (fuel : Nat) :
    ∀ (qs : List (List (Nat × group))) (rest pre : List agent) (s : CalcState) (k : Int),
      k = qs.length →
      s.agents = pre ++ rest → lines s.heap rest qs → (addrs qs.flatten).Nodup →
      (∀ q ∈ qs, q.length ≤ fuel) →
      (∀ q ∈ qs, ∀ c ∈ q, valid_group c.2 ∧ c.2.children ≤ 2147483646) →
      pre.length + k ≤ 2147483647 →
      0 ≤ s.totalNumberGroupsProcessed →
      s.totalNumberGroupsProcessed + total_groups (qs.map groups) ≤ 2147483647 →
      0 ≤ s.totalWaitTime →
      s.totalWaitTime + (all_waits (qs.map groups)).sum ≤ 2147483647 →
      0 ≤ s.report.total_time →
      s.report.total_time + ((qs.map groups).map elapsed).sum ≤ 2147483647 →
      0 ≤ s.report.total_payroll →
      s.report.total_payroll + ((qs.map groups).map elapsed).sum ≤ 2147483647 →
      for_loop_checked fuel qs.length pre.length s = for_loop fuel qs.length pre.length s := by
  intro qs
  induction qs with
  | nil =>
    intro rest pre s k _ _ _ _ _ _ _ _ _ _ _ _ _ _ _
    rfl
  | cons q qs ih =>
    intro rest pre s k hk hs hl hnd hf hv hpk hn0 hn1 hw0 hw1 ht0 ht1 hp0 hp1
    cases rest with
    | nil =>
      unfold lines at hl
      exact hl.elim
    | cons agt rest =>
      unfold lines at hl
      have hk1 : k - 1 = qs.length := by
        rw [hk, List.length_cons]
        push_cast
        omega
      have hkpos : 0 ≤ k - 1 := by
        rw [hk1]
        exact Int.ofNat_nonneg _
      have hi : s.agents[pre.length]? = some agt := by
        rw [hs, List.getElem?_append_right (le_refl _)]
        simp
      have hnd0 : (addrs q ++ addrs qs.flatten).Nodup := by
        simpa [addrs] using hnd
      have hndq : (addrs q).Nodup := (List.nodup_append.mp hnd0).1
      have hndqs : (addrs qs.flatten).Nodup := (List.nodup_append.mp hnd0).2.1
      have hdisj := (List.nodup_append.mp hnd0).2.2
      have hvq : ∀ g ∈ groups q, valid_group g := by
        intro g hg
        obtain ⟨d, hd, e⟩ := List.mem_map.mp hg
        rw [← e]
        exact (hv q (by simp) d hd).1
      have hvqs : ∀ q1 ∈ qs.map groups, ∀ g ∈ q1, valid_group g :=
        valid_groups_of_cells (fun q1 hq1 c hc => (hv q1 (by simp [hq1]) c hc).1)
      have e_q := elapsed_nonneg (groups q) hvq
      have e_qs := sum_elapsed_nonneg (qs.map groups) hvqs
      have w_q : 0 ≤ (wait_times (groups q)).sum :=
        List.sum_nonneg (wait_times_nonneg (groups q) hvq)
      have w_qs : 0 ≤ (all_waits (qs.map groups)).sum :=
        List.sum_nonneg (all_waits_nonneg (qs.map groups) hvqs)
      have hpayb := add_pay_checked_of_fits (p := 0) (e := elapsed (groups q)) (le_refl _) e_q
        (by
          simp only [List.map_cons, List.sum_cons] at ht1
          omega)
      have hN : (total_groups ((q :: qs).map groups) : Int)
          = q.length + total_groups (qs.map groups) := by
        simp [total_groups, groups]
      have hW : (all_waits ((q :: qs).map groups)).sum
          = (wait_times (groups q)).sum + (all_waits (qs.map groups)).sum := by
        simp [all_waits]
      have hT : (((q :: qs).map groups).map elapsed).sum
          = elapsed (groups q) + ((qs.map groups).map elapsed).sum := by
        simp
      rw [hN] at hn1
      rw [hW] at hw1
      rw [hT] at ht1 hp1
      have hqlen : (0 : Int) ≤ q.length := Int.ofNat_nonneg _
      have hNqs : (0 : Int) ≤ total_groups (qs.map groups) := Int.ofNat_nonneg _
      have hbc := for_body_checked_of_fits fuel pre.length s agt q hi hl.1 hndq (hf q (by simp))
        (hv q (by simp)) hn0 (by omega) hw0 (by omega) ht0 (by omega) hp0 (by omega)
      have hclosed := for_body_eq fuel pre.length s agt q hi hl.1 hndq (hf q (by simp))
      rw [hclosed] at hbc
      have hagents : s.agents.set pre.length (served agt) = (pre ++ [served agt]) ++ rest := by
        rw [hs]
        simp
      have hpre : ((pre ++ [served agt]).length : Int) = pre.length + 1 := by
        rw [List.length_append, List.length_singleton]
        push_cast
        rfl
      have hrec := ih rest (pre ++ [served agt])
        { heap := free_all s.heap (addrs q),
          agents := s.agents.set pre.length (served agt),
          report :=
            { total_time := s.report.total_time + elapsed (groups q),
              total_payroll := s.report.total_payroll + add_pay 0 (elapsed (groups q)),
              avg_wait_time := s.report.avg_wait_time,
              max_wait_time := (wait_times (groups q)).foldl max_step s.report.max_wait_time },
          totalNumberGroupsProcessed := s.totalNumberGroupsProcessed + q.length,
          totalWaitTime := s.totalWaitTime + (wait_times (groups q)).sum }
        (k - 1) hk1 hagents
        (lines_free_all (addrs q) s.heap rest qs hl.2 (fun a ha hm => hdisj ha hm)) hndqs
        (fun q1 hq1 => hf q1 (by simp [hq1])) (fun q1 hq1 => hv q1 (by simp [hq1]))
        (by rw [hpre]; omega)
        (by simp only; omega) (by simp only; omega) (by simp only; omega) (by simp only; omega)
        (by simp only; omega) (by simp only; omega)
        (by simp only; omega) (by simp only; omega)
      simp only [List.length_append, List.length_singleton] at hrec
      rw [List.length_cons, for_loop_checked_step hbc (by omega), hrec, for_loop]
      simp only [hclosed]

/-- The range-checked `calc_time` agrees with the plain one on separate,
well-formed queues of groups with at least one adult and fewer than
`INT_MAX` children, when the number of agents, the total time and the total
wait fit an `int`: no operation overflows. -/
theorem calc_time_checked_of_fits (fuel : Nat) (h : Heap) (agents : List agent)
    (qs : List (List (Nat × group))) (hw : separate_lines h agents qs)
    (hf : ∀ q ∈ qs, q.length ≤ fuel) (hpos : 0 < total_groups (qs.map groups))
    (hv : ∀ q ∈ qs, ∀ c ∈ q, valid_group c.2 ∧ c.2.children ≤ 2147483646)
    (hA : (agents.length : Int) ≤ 2147483647)
    (hT : ((qs.map groups).map elapsed).sum ≤ 2147483647)
    (hW : total_wait (qs.map groups) ≤ 2147483647) :
    calc_time_checked fuel agents.length h agents = calc_time fuel agents.length h agents := by
  have hlenq := lines_length h agents qs hw.1
  have hvg : ∀ q ∈ qs.map groups, ∀ g ∈ q, valid_group g :=
    valid_groups_of_cells (fun q hq c hc => (hv q hq c hc).1)
  have hNT := total_groups_le_sum_elapsed (qs.map groups) hvg
  have hW0 := total_wait_nonneg (qs.map groups) hvg
  rw [← sum_all_waits] at hW hW0
  have hk : (qs.length : Int) ≤ 2147483647 := by
    rw [← hlenq]
    exact hA
  have hlc := for_loop_checked_of_fits fuel qs agents []
    { heap := h, agents := agents,
      report := { max_wait_time := 0, total_payroll := 0, total_time := 0, avg_wait_time := 0 },
      totalNumberGroupsProcessed := 0, totalWaitTime := 0 }
    qs.length rfl (by simp) hw.1 hw.2 hf hv
    (by simp only [List.length_nil, Nat.cast_zero]; omega)
    (le_refl _) (by simp only; omega) (le_refl _) (by simp only; omega)
    (le_refl _) (by simp only; omega) (le_refl _) (by simp only; omega)
  have hloop := for_loop_eq fuel qs agents []
    { heap := h, agents := agents,
      report := { max_wait_time := 0, total_payroll := 0, total_time := 0, avg_wait_time := 0 },
      totalNumberGroupsProcessed := 0, totalWaitTime := 0 }
    (by simp) hw.1 hw.2 hf
  simp only [List.length_nil, ← hlenq, zero_add, List.nil_append] at hlc hloop
  have hne : ¬ ((total_groups (qs.map groups) : Int) = 0) := by omega
  have hdiv : Int.tdiv (all_waits (qs.map groups)).sum (total_groups (qs.map groups))
      = (all_waits (qs.map groups)).sum / (total_groups (qs.map groups) : Int) :=
    Int.tdiv_eq_ediv hW0 (Int.ofNat_nonneg _)
  have hd0 : 0 ≤ (all_waits (qs.map groups)).sum / (total_groups (qs.map groups) : Int) :=
    Int.ediv_nonneg hW0 (Int.ofNat_nonneg _)
  have hd1 : (all_waits (qs.map groups)).sum / (total_groups (qs.map groups) : Int)
      ≤ (all_waits (qs.map groups)).sum := Int.ediv_le_self _ hW0
  have hchk : checked (Int.tdiv (all_waits (qs.map groups)).sum
        (total_groups (qs.map groups)))
      = .ok (Int.tdiv (all_waits (qs.map groups)).sum (total_groups (qs.map groups))) :=
    checked_ok ⟨by rw [hdiv]; omega, by rw [hdiv]; omega⟩
  unfold calc_time_checked calc_time
  simp only [Int.toNat_ofNat, hlc, hloop, bind, Except.bind, hne, if_false, hchk]

/-! ## Processing time on `int` -/

/-- C1, as stated, fails when an operation of `proc_time` overflows: for one
domestic adult with 2147483647 children (at least one adult, no negative
number of children) `1 + children` does not fit an `int`. -/
theorem proc_time_overflows_many_children :
    (1 : Int) ≤ (group.mk 1 2147483647 1 none none).adults
      ∧ (0 : Int) ≤ (group.mk 1 2147483647 1 none none).children
      ∧ proc_time_checked (group.mk 1 2147483647 1 none none) = .error .overflow := by
  decide

/-- C1, amended: for every group with at least one adult and no negative
number of children on which no `int` operation of `proc_time` overflows, that
is `1 + children` and base plus overhead are at most 2147483647, `proc_time`
returns base plus overhead: the base is the number of adults, doubled for a
foreign group, and the overhead is the floor of `(1 + children) / 2`. -/
theorem proc_time_eq_base_add_overhead (g : group) (ha : 1 ≤ g.adults)
    (hc : 0 ≤ g.children) (hc1 : 1 + g.children ≤ 2147483647)
    (hr : (if g.usa ≠ 0 then g.adults else 2 * g.adults) + Int.fdiv (1 + g.children) 2
      ≤ 2147483647) :
    proc_time_checked g
      = .ok ((if g.usa ≠ 0 then g.adults else 2 * g.adults)
          + Int.fdiv (1 + g.children) 2) := by
  have h1 : Int.fdiv (1 + g.children) 2 = Int.tdiv (1 + g.children) 2 :=
    Int.fdiv_eq_tdiv (by omega) (by decide)
  have hp : proc_time g
      = (if g.usa ≠ 0 then g.adults else 2 * g.adults) + Int.fdiv (1 + g.children) 2 := by
    unfold proc_time
    by_cases hu : g.usa = 0
    · simp only [hu, ne_eq, not_true_eq_false, if_false, if_true, h1]
      omega
    · simp only [hu, ne_eq, not_false_eq_true, if_false, if_true, h1]
  rw [← hp] at hr ⊢
  exact proc_time_checked_of_range ha hc (by omega) hr

/-- A foreign group of one adult and three children takes `2 + 2` minutes. -/
theorem proc_time_eq_base_add_overhead_witness :
    proc_time_checked (group.mk 1 3 0 none none) = .ok (2 * 1 + 2) :=
  (proc_time_eq_base_add_overhead (group.mk 1 3 0 none none) (by decide) (by decide)
    (by decide) (by decide)).trans (by decide)

/-- C2, as stated, fails when an operation of `proc_time` overflows: for a
foreign group of 2147483647 adults without children the doubling does not fit
an `int`, and no result of at least one minute is returned. -/
theorem proc_time_overflows_many_adults :
    (1 : Int) ≤ (group.mk 2147483647 0 0 none none).adults
      ∧ (0 : Int) ≤ (group.mk 2147483647 0 0 none none).children
      ∧ proc_time_checked (group.mk 2147483647 0 0 none none) = .error .overflow := by
  decide

/-- C2, amended: for every group with at least one adult and no negative
number of children, of either citizenship, on which no `int` operation of
`proc_time` overflows (`1 + children` and base plus overhead are at most
2147483647), `proc_time` returns at least one minute. -/
theorem proc_time_pos (g : group) (ha : 1 ≤ g.adults) (hc : 0 ≤ g.children)
    (hc1 : 1 + g.children ≤ 2147483647)
    (hr : base_time g + Int.fdiv (1 + g.children) 2 ≤ 2147483647) :
    ∃ v, proc_time_checked g = .ok v ∧ 1 ≤ v := by
  have h1 : Int.fdiv (1 + g.children) 2 = Int.tdiv (1 + g.children) 2 :=
    Int.fdiv_eq_tdiv (by omega) (by decide)
  have h0 : 0 ≤ Int.tdiv (1 + g.children) 2 := Int.tdiv_nonneg (by omega) (by decide)
  have hp : proc_time g = base_time g + Int.fdiv (1 + g.children) 2 := by
    unfold proc_time base_time
    by_cases hu : g.usa = 0
    · simp only [hu, if_true, h1]
      omega
    · simp only [hu, if_false, h1]
  have hb : 1 ≤ base_time g := by
    unfold base_time
    split_ifs <;> omega
  refine ⟨proc_time g, proc_time_checked_of_range ha hc (by omega) (by rw [hp]; exact hr), ?_⟩
  rw [hp, h1]
  omega

/-- A single domestic adult without children takes one minute. -/
theorem proc_time_pos_witness :
    proc_time_checked (group.mk 1 0 1 none none) = .ok 1
      ∧ ∃ v, proc_time_checked (group.mk 1 0 1 none none) = .ok v ∧ 1 ≤ v :=
  ⟨by decide,
    proc_time_pos (group.mk 1 0 1 none none) (by decide) (by decide) (by decide) (by decide)⟩

/-- What the range-checked `calc_time` returns when nothing overflows: the
closed form of the report, the freed heap and the served agents. -/
theorem calc_time_checked_eq (fuel : Nat) (h : Heap) (agents : List agent)
    (qs : List (List (Nat × group))) (hw : separate_lines h agents qs)
    (hf : ∀ q ∈ qs, q.length ≤ fuel) (hpos : 0 < total_groups (qs.map groups))
    (hv : ∀ q ∈ qs, ∀ c ∈ q, valid_group c.2 ∧ c.2.children ≤ 2147483646)
    (hA : agents.length ≤ 2147483647)
    (hT : ((qs.map groups).map elapsed).sum ≤ 2147483647)
    (hW : total_wait (qs.map groups) ≤ 2147483647) :
    calc_time_checked fuel agents.length h agents
      = .ok ({ total_time := ((qs.map groups).map elapsed).sum,
               total_payroll := ((qs.map groups).map (fun q => add_pay 0 (elapsed q))).sum,
               avg_wait_time :=
                 Int.tdiv (all_waits (qs.map groups)).sum (total_groups (qs.map groups)),
               max_wait_time := (all_waits (qs.map groups)).foldl max_step 0 },
             free_all h (addrs qs.flatten), agents.map served) := by
  rw [calc_time_checked_of_fits fuel h agents qs hw hf hpos hv (by exact_mod_cast hA) hT hW]
  exact calc_time_eq fuel h agents qs hw hf hpos

theorem valid_of_fitting {qs : List (List (Nat × group))}
    (hv : ∀ q ∈ qs, ∀ c ∈ q, valid_group c.2 ∧ c.2.children ≤ 2147483646) :
    ∀ q ∈ qs, ∀ c ∈ q, valid_group c.2 :=
  fun q hq c hc => (hv q hq c hc).1

/-- C6, as stated, fails in two ways.  On a queue whose first group has -1
adults the waits are 0 and -1: `calc_time` divides -1 by 2 toward zero and
reports 0, while the floor of the quotient is -1.  On a queue of two groups of
2147483647 adults and one more group (all with at least one adult and no
children) the clock overflows and no report with the average is returned. -/
theorem avg_wait_time_truncates :
    (separate_lines [some (group.mk (-1) 0 1 (some 1) none), some (group.mk 1 0 1 none none)]
        [agent.mk 0 0 (some 0) (some 1)]
        [[(0, group.mk (-1) 0 1 (some 1) none), (1, group.mk 1 0 1 none none)]]
      ∧ calc_time_checked 2 1
          [some (group.mk (-1) 0 1 (some 1) none), some (group.mk 1 0 1 none none)]
          [agent.mk 0 0 (some 0) (some 1)]
        = .ok (stats.mk 0 0 0 0, [none, none], [agent.mk 0 0 none (some 1)])
      ∧ wait_times [group.mk (-1) 0 1 (some 1) none, group.mk 1 0 1 none none] = [0, -1]
      ∧ Int.fdiv (total_wait [[group.mk (-1) 0 1 (some 1) none, group.mk 1 0 1 none none]])
          (total_groups [[group.mk (-1) 0 1 (some 1) none, group.mk 1 0 1 none none]])
        = -1)
    ∧ (separate_lines
        [some (group.mk 2147483647 0 1 (some 1) none),
          some (group.mk 2147483647 0 1 (some 2) none), some (group.mk 1 0 1 none none)]
        [agent.mk 0 0 (some 0) (some 2)]
        [[(0, group.mk 2147483647 0 1 (some 1) none),
          (1, group.mk 2147483647 0 1 (some 2) none), (2, group.mk 1 0 1 none none)]]
      ∧ calc_time_checked 3 1
          [some (group.mk 2147483647 0 1 (some 1) none),
            some (group.mk 2147483647 0 1 (some 2) none), some (group.mk 1 0 1 none none)]
          [agent.mk 0 0 (some 0) (some 2)]
        = .error .overflow) := by
  decide

/-- C6, amended: for every array of agents with separate, well-formed queues
that hold at least one group, all groups having at least one adult and between
0 and 2147483646 children, with the number of agents, the total time and the
total wait `W` at most 2147483647 (so that no `int` operation overflows),
`calc_time` (given fuel for the longest queue) returns a report whose
`avg_wait_time` is the floor of `W / N`: `N` is the number of groups in all
queues and `W` the sum, over every agent and every position of its queue, of
the wait time of the group there, the sum of `proc_time` of the groups ahead
of it in the same queue. -/
theorem avg_wait_time_eq_floor (fuel : Nat) (h : Heap) (agents : List agent)
    (qs : List (List (Nat × group))) (hw : separate_lines h agents qs)
    (hf : ∀ q ∈ qs, q.length ≤ fuel) (hpos : 0 < total_groups (qs.map groups))
    (hv : ∀ q ∈ qs, ∀ c ∈ q, valid_group c.2 ∧ c.2.children ≤ 2147483646)
    (hA : agents.length ≤ 2147483647)
    (hT : ((qs.map groups).map elapsed).sum ≤ 2147483647)
    (hW : total_wait (qs.map groups) ≤ 2147483647) :
    ∃ r h1 agents1, calc_time_checked fuel agents.length h agents = .ok (r, h1, agents1)
      ∧ r.avg_wait_time
          = Int.fdiv (total_wait (qs.map groups)) (total_groups (qs.map groups)) := by
  refine ⟨_, _, _, calc_time_checked_eq fuel h agents qs hw hf hpos hv hA hT hW, ?_⟩
  simp only [sum_all_waits]
  exact (Int.fdiv_eq_tdiv
    (total_wait_nonneg _ (valid_groups_of_cells (valid_of_fitting hv)))
    (Int.ofNat_nonneg _)).symm

/-- Two agents: one serves groups of 8, 2 and 1 minutes, the other one group;
the waits are 0, 8, 10 and 0, their sum 18, and the average over 4 groups is
the floor of 4.5. -/
theorem avg_wait_time_eq_floor_witness :
    ∃ r h1 agents1,
      calc_time_checked 3 2
          [some (group.mk 3 4 0 (some 1) none), some (group.mk 2 0 1 (some 2) none),
            some (group.mk 1 0 1 none none), some (group.mk 3 1 1 none none)]
          [agent.mk 0 0 (some 0) (some 2), agent.mk 0 0 (some 3) (some 3)]
        = .ok (r, h1, agents1)
      ∧ r.avg_wait_time = 4 :=
  avg_wait_time_eq_floor 3
    [some (group.mk 3 4 0 (some 1) none), some (group.mk 2 0 1 (some 2) none),
      some (group.mk 1 0 1 none none), some (group.mk 3 1 1 none none)]
    [agent.mk 0 0 (some 0) (some 2), agent.mk 0 0 (some 3) (some 3)]
    [[(0, group.mk 3 4 0 (some 1) none), (1, group.mk 2 0 1 (some 2) none),
        (2, group.mk 1 0 1 none none)],
      [(3, group.mk 3 1 1 none none)]]
    (by decide) (by decide) (by decide) (by decide) (by decide) (by decide) (by decide)

/-- C7, as stated, fails when the clock overflows: in a queue of two groups
of 2147483647 adults and one more group (all with at least one adult and no
children) the last group's wait is 4294967294 minutes, more than an `int`
holds, and `calc_time` overflows while adding up the clock instead of
reporting that maximum. -/
theorem max_wait_time_overflows :
    separate_lines
        [some (group.mk 2147483647 0 1 (some 1) none),
          some (group.mk 2147483647 0 1 (some 2) none), some (group.mk 1 0 1 none none)]
        [agent.mk 0 0 (some 0) (some 2)]
        [[(0, group.mk 2147483647 0 1 (some 1) none),
          (1, group.mk 2147483647 0 1 (some 2) none), (2, group.mk 1 0 1 none none)]]
      ∧ (∀ g ∈ [group.mk 2147483647 0 1 (some 1) none, group.mk 2147483647 0 1 (some 2) none,
            group.mk 1 0 1 none none], valid_group g)
      ∧ wait_times [group.mk 2147483647 0 1 (some 1) none,
            group.mk 2147483647 0 1 (some 2) none, group.mk 1 0 1 none none]
          = [0, 2147483647, 4294967294]
      ∧ calc_time_checked 3 1
          [some (group.mk 2147483647 0 1 (some 1) none),
            some (group.mk 2147483647 0 1 (some 2) none), some (group.mk 1 0 1 none none)]
          [agent.mk 0 0 (some 0) (some 2)]
        = .error .overflow := by
  decide

/-- C7, amended: for every array of agents with separate, well-formed queues
that hold at least one group, all groups having at least one adult and between
0 and 2147483646 children, with the number of agents, the total time and the
total wait at most 2147483647 (so that no `int` operation overflows),
`calc_time` (given fuel for the longest queue) returns a report whose
`max_wait_time` is the maximum of the wait times of all groups in all queues:
it is the wait time of some group, and no group waits longer. -/
theorem max_wait_time_eq_maximum (fuel : Nat) (h : Heap) (agents : List agent)
    (qs : List (List (Nat × group))) (hw : separate_lines h agents qs)
    (hf : ∀ q ∈ qs, q.length ≤ fuel) (hpos : 0 < total_groups (qs.map groups))
    (hv : ∀ q ∈ qs, ∀ c ∈ q, valid_group c.2 ∧ c.2.children ≤ 2147483646)
    (hA : agents.length ≤ 2147483647)
    (hT : ((qs.map groups).map elapsed).sum ≤ 2147483647)
    (hW : total_wait (qs.map groups) ≤ 2147483647) :
    ∃ r h1 agents1, calc_time_checked fuel agents.length h agents = .ok (r, h1, agents1)
      ∧ r.max_wait_time ∈ all_waits (qs.map groups)
      ∧ ∀ w ∈ all_waits (qs.map groups), w ≤ r.max_wait_time := by
  refine ⟨_, _, _, calc_time_checked_eq fuel h agents qs hw hf hpos hv hA hT hW, ?_, ?_⟩
  · rcases foldl_max_step_mem (all_waits (qs.map groups)) 0 with e | hm
    · simp only [e]
      exact zero_mem_all_waits _ hpos
    · exact hm
  · exact (le_foldl_max_step (all_waits (qs.map groups)) 0).2

/-- The scenario of the specification: one agent with the queue A (two
domestic adults) and B (one foreign adult, three children).  A waits 0
minutes, B waits 2, the agent is busy for 6 minutes and the maximum wait
reported is 2. -/
theorem max_wait_time_eq_maximum_witness :
    wait_times [group.mk 2 0 1 (some 1) none, group.mk 1 3 0 none none] = [0, 2]
      ∧ elapsed [group.mk 2 0 1 (some 1) none, group.mk 1 3 0 none none] = 6
      ∧ ∃ r h1 agents1,
          calc_time_checked 2 1
              [some (group.mk 2 0 1 (some 1) none), some (group.mk 1 3 0 none none)]
              [agent.mk 0 0 (some 0) (some 1)]
            = .ok (r, h1, agents1)
          ∧ r.max_wait_time = 2 := by
  refine ⟨by decide, by decide, ?_⟩
  obtain ⟨r, h1, agents1, hc, hmem, hmax⟩ :=
    max_wait_time_eq_maximum 2
      [some (group.mk 2 0 1 (some 1) none), some (group.mk 1 3 0 none none)]
      [agent.mk 0 0 (some 0) (some 1)]
      [[(0, group.mk 2 0 1 (some 1) none), (1, group.mk 1 3 0 none none)]]
      (by decide) (by decide) (by decide) (by decide) (by decide) (by decide) (by decide)
  refine ⟨r, h1, agents1, hc, ?_⟩
  have hall : all_waits
      ([[(0, group.mk 2 0 1 (some 1) none), (1, group.mk 1 3 0 none none)]].map groups)
      = [0, 2] := by decide
  rw [hall] at hmem hmax
  have h2 := hmax 2 (by simp)
  simp only [List.mem_cons, List.mem_singleton, List.not_mem_nil, or_false] at hmem
  omega

/-- C8, as stated, fails in two ways.  For one group with -1 adults the
elapsed time is -1: `calc_time` divides by 60 toward zero and pays 0 dollars,
while the floor gives -1 hours and -20 dollars.  For a queue of two groups of
2147483647 adults (at least one adult, no children) the clock overflows and
no payroll is reported. -/
theorem total_payroll_truncates :
    (separate_lines [some (group.mk (-1) 0 1 none none)] [agent.mk 0 0 (some 0) (some 0)]
        [[(0, group.mk (-1) 0 1 none none)]]
      ∧ calc_time_checked 1 1 [some (group.mk (-1) 0 1 none none)]
          [agent.mk 0 0 (some 0) (some 0)]
        = .ok (stats.mk (-1) 0 0 0, [none], [agent.mk 0 0 none (some 0)])
      ∧ elapsed [group.mk (-1) 0 1 none none] = -1
      ∧ ([[group.mk (-1) 0 1 none none]].map (fun q => spec_pay (elapsed q))).sum = -20)
    ∧ (separate_lines
        [some (group.mk 2147483647 0 1 (some 1) none), some (group.mk 2147483647 0 1 none none)]
        [agent.mk 0 0 (some 0) (some 1)]
        [[(0, group.mk 2147483647 0 1 (some 1) none),
          (1, group.mk 2147483647 0 1 none none)]]
      ∧ calc_time_checked 2 1
          [some (group.mk 2147483647 0 1 (some 1) none),
            some (group.mk 2147483647 0 1 none none)]
          [agent.mk 0 0 (some 0) (some 1)]
        = .error .overflow) := by
  decide

/-- C8, amended: for every array of agents with separate, well-formed queues
that hold at least one group, all groups having at least one adult and between
0 and 2147483646 children, with the number of agents, the total time and the
total wait at most 2147483647 (so that no `int` operation overflows),
`calc_time` (given fuel for the longest queue) returns a report whose
`total_payroll` is the sum over the agents of the pay for the agent's elapsed
time, the sum of `proc_time` over its queue: with `hours` the floor of
`elapsed / 60`, the pay is `8*20 + (hours-8)*30` if `hours > 8`, and
`hours*20` otherwise. -/
theorem total_payroll_eq_sum_pay (fuel : Nat) (h : Heap) (agents : List agent)
    (qs : List (List (Nat × group))) (hw : separate_lines h agents qs)
    (hf : ∀ q ∈ qs, q.length ≤ fuel) (hpos : 0 < total_groups (qs.map groups))
    (hv : ∀ q ∈ qs, ∀ c ∈ q, valid_group c.2 ∧ c.2.children ≤ 2147483646)
    (hA : agents.length ≤ 2147483647)
    (hT : ((qs.map groups).map elapsed).sum ≤ 2147483647)
    (hW : total_wait (qs.map groups) ≤ 2147483647) :
    ∃ r h1 agents1, calc_time_checked fuel agents.length h agents = .ok (r, h1, agents1)
      ∧ r.total_payroll = ((qs.map groups).map (fun q => spec_pay (elapsed q))).sum := by
  refine ⟨_, _, _, calc_time_checked_eq fuel h agents qs hw hf hpos hv hA hT hW, ?_⟩
  simp only
  refine congrArg List.sum (List.map_congr_left ?_)
  intro q hq
  exact add_pay_zero_eq_spec_pay
    (elapsed_nonneg q (valid_groups_of_cells (valid_of_fitting hv) q hq))

/-- The scenarios of the specification: a single agent who is busy for 500
minutes is paid for 8 hours, 160 dollars; one who is busy for 600 minutes is
paid for 10 hours, two of them overtime, 220 dollars. -/
theorem total_payroll_eq_sum_pay_witness :
    (elapsed [group.mk 500 0 1 none none] = 500
      ∧ ∃ r h1 agents1,
          calc_time_checked 1 1 [some (group.mk 500 0 1 none none)]
              [agent.mk 0 0 (some 0) (some 0)]
            = .ok (r, h1, agents1)
          ∧ r.total_payroll = 160)
    ∧ (elapsed [group.mk 600 0 1 none none] = 600
      ∧ ∃ r h1 agents1,
          calc_time_checked 1 1 [some (group.mk 600 0 1 none none)]
              [agent.mk 0 0 (some 0) (some 0)]
            = .ok (r, h1, agents1)
          ∧ r.total_payroll = 220) :=
  ⟨⟨by decide,
      total_payroll_eq_sum_pay 1 [some (group.mk 500 0 1 none none)]
        [agent.mk 0 0 (some 0) (some 0)] [[(0, group.mk 500 0 1 none none)]]
        (by decide) (by decide) (by decide) (by decide) (by decide) (by decide) (by decide)⟩,
    ⟨by decide,
      total_payroll_eq_sum_pay 1 [some (group.mk 600 0 1 none none)]
        [agent.mk 0 0 (some 0) (some 0)] [[(0, group.mk 600 0 1 none none)]]
        (by decide) (by decide) (by decide) (by decide) (by decide) (by decide) (by decide)⟩⟩

/-- C12, as stated, fails when the clock overflows: for a queue of two groups
of 2147483647 adults the sum of the processing times is 4294967294, more than
an `int` holds, and `calc_time` overflows while adding up the clock instead of
reporting that total. -/
theorem total_time_overflows :
    separate_lines
        [some (group.mk 2147483647 0 1 (some 1) none), some (group.mk 2147483647 0 1 none none)]
        [agent.mk 0 0 (some 0) (some 1)]
        [[(0, group.mk 2147483647 0 1 (some 1) none),
          (1, group.mk 2147483647 0 1 none none)]]
      ∧ elapsed [group.mk 2147483647 0 1 (some 1) none, group.mk 2147483647 0 1 none none]
          = 4294967294
      ∧ calc_time_checked 2 1
          [some (group.mk 2147483647 0 1 (some 1) none),
            some (group.mk 2147483647 0 1 none none)]
          [agent.mk 0 0 (some 0) (some 1)]
        = .error .overflow := by
  decide

/-- C12, amended: for every array of agents with separate, well-formed queues
that hold at least one group, whenever `calc_time` (given fuel for the longest
queue) runs without an `int` overflow, the report it returns has `total_time`
equal to the sum over the agents of the agent's final elapsed time, that is
the sum of `proc_time` over every group of every queue.  And it does run
without overflow, and returns, when all groups have at least one adult and
between 0 and 2147483646 children and the number of agents, the total time and
the total wait are at most 2147483647. -/
theorem total_time_eq_sum_elapsed (fuel : Nat) (h : Heap) (agents : List agent)
    (qs : List (List (Nat × group))) (hw : separate_lines h agents qs)
    (hf : ∀ q ∈ qs, q.length ≤ fuel) (hpos : 0 < total_groups (qs.map groups)) :
    (∀ r h1 agents1, calc_time_checked fuel agents.length h agents = .ok (r, h1, agents1) →
        r.total_time = ((qs.map groups).map elapsed).sum
          ∧ r.total_time = (((qs.map groups).flatten).map proc_time).sum)
      ∧ ((∀ q ∈ qs, ∀ c ∈ q, valid_group c.2 ∧ c.2.children ≤ 2147483646) →
          agents.length ≤ 2147483647 →
          ((qs.map groups).map elapsed).sum ≤ 2147483647 →
          total_wait (qs.map groups) ≤ 2147483647 →
          ∃ r h1 agents1,
            calc_time_checked fuel agents.length h agents = .ok (r, h1, agents1)) := by
  constructor
  · intro r h1 agents1 hc
    have hu := calc_time_checked_inv hc
    rw [calc_time_eq fuel h agents qs hw hf hpos] at hu
    have e := congrArg (fun x => x.1.total_time) (Except.ok.inj hu)
    simp only at e
    rw [← e]
    exact ⟨rfl, sum_elapsed_eq_flatten _⟩
  · intro hv hA hT hW
    exact ⟨_, _, _, calc_time_checked_eq fuel h agents qs hw hf hpos hv hA hT hW⟩

/-- Two agents with queues of 8 + 2 + 1 and of 4 minutes: nothing overflows
and the report shows 15 minutes of work. -/
theorem total_time_eq_sum_elapsed_witness :
    ∃ r h1 agents1,
      calc_time_checked 3 2
          [some (group.mk 3 4 0 (some 1) none), some (group.mk 2 0 1 (some 2) none),
            some (group.mk 1 0 1 none none), some (group.mk 3 1 1 none none)]
          [agent.mk 0 0 (some 0) (some 2), agent.mk 0 0 (some 3) (some 3)]
        = .ok (r, h1, agents1)
      ∧ r.total_time = 15 ∧ r.total_time = 8 + 2 + 1 + 4 := by
  have ht := total_time_eq_sum_elapsed 3
    [some (group.mk 3 4 0 (some 1) none), some (group.mk 2 0 1 (some 2) none),
      some (group.mk 1 0 1 none none), some (group.mk 3 1 1 none none)]
    [agent.mk 0 0 (some 0) (some 2), agent.mk 0 0 (some 3) (some 3)]
    [[(0, group.mk 3 4 0 (some 1) none), (1, group.mk 2 0 1 (some 2) none),
        (2, group.mk 1 0 1 none none)],
      [(3, group.mk 3 1 1 none none)]]
    (by decide) (by decide) (by decide)
  obtain ⟨r, h1, agents1, hc⟩ := ht.2 (by decide) (by decide) (by decide) (by decide)
  have hsum := (ht.1 r h1 agents1 hc).1
  exact ⟨r, h1, agents1, hc, hsum.trans (by decide), hsum.trans (by decide)⟩

/-- C15, as stated, fails when the clock overflows: for a queue of two groups
of 2147483647 adults (at least one adult, no children) the second group waits
2147483647 minutes, and `calc_time` overflows while adding up the clock, so no
report with `max_wait_time ≤ total_time` is returned. -/
theorem report_order_overflows :
    separate_lines
        [some (group.mk 2147483647 0 1 (some 1) none), some (group.mk 2147483647 0 1 none none)]
        [agent.mk 0 0 (some 0) (some 1)]
        [[(0, group.mk 2147483647 0 1 (some 1) none),
          (1, group.mk 2147483647 0 1 none none)]]
      ∧ (∀ g ∈ [group.mk 2147483647 0 1 (some 1) none, group.mk 2147483647 0 1 none none],
          valid_group g)
      ∧ wait_times [group.mk 2147483647 0 1 (some 1) none, group.mk 2147483647 0 1 none none]
          = [0, 2147483647]
      ∧ calc_time_checked 2 1
          [some (group.mk 2147483647 0 1 (some 1) none),
            some (group.mk 2147483647 0 1 none none)]
          [agent.mk 0 0 (some 0) (some 1)]
        = .error .overflow := by
  decide

/-- C15, amended: for every array of agents with separate, well-formed queues
that hold at least one group, all groups having at least one adult and between
0 and 2147483646 children, with the number of agents, the total time and the
total wait at most 2147483647 (so that no `int` operation overflows), the
report `calc_time` returns (given fuel for the longest queue) satisfies
`0 ≤ avg_wait_time ≤ max_wait_time ≤ total_time`. -/
theorem report_ordered (fuel : Nat) (h : Heap) (agents : List agent)
    (qs : List (List (Nat × group))) (hw : separate_lines h agents qs)
    (hf : ∀ q ∈ qs, q.length ≤ fuel) (hpos : 0 < total_groups (qs.map groups))
    (hv : ∀ q ∈ qs, ∀ c ∈ q, valid_group c.2 ∧ c.2.children ≤ 2147483646)
    (hA : agents.length ≤ 2147483647)
    (hT : ((qs.map groups).map elapsed).sum ≤ 2147483647)
    (hW : total_wait (qs.map groups) ≤ 2147483647) :
    ∃ r h1 agents1, calc_time_checked fuel agents.length h agents = .ok (r, h1, agents1)
      ∧ 0 ≤ r.avg_wait_time ∧ r.avg_wait_time ≤ r.max_wait_time
      ∧ r.max_wait_time ≤ r.total_time := by
  have hvg := valid_groups_of_cells (valid_of_fitting hv)
  have hnn : 0 ≤ (all_waits (qs.map groups)).sum := by
    rw [sum_all_waits]
    exact total_wait_nonneg _ hvg
  have hmax := le_foldl_max_step (all_waits (qs.map groups)) 0
  have hsum := sum_le_length_mul (all_waits (qs.map groups)) _ hmax.2
  rw [length_all_waits] at hsum
  have hmem : (all_waits (qs.map groups)).foldl max_step 0 ∈ all_waits (qs.map groups) := by
    rcases foldl_max_step_mem (all_waits (qs.map groups)) 0 with e | hm
    · rw [e]
      exact zero_mem_all_waits _ hpos
    · exact hm
  refine ⟨_, _, _, calc_time_checked_eq fuel h agents qs hw hf hpos hv hA hT hW, ?_, ?_, ?_⟩
  · exact Int.tdiv_nonneg hnn (Int.ofNat_nonneg _)
  · simp only
    rw [Int.tdiv_eq_ediv hnn (Int.ofNat_nonneg _)]
    apply Int.ediv_le_of_le_mul (by exact_mod_cast hpos)
    rw [mul_comm]
    exact hsum
  · exact all_waits_le_sum_elapsed _ hvg _ hmem

/-- Two agents with queues of 8 + 2 + 1 and of 4 minutes: the average wait is
4, the longest wait 10, the total time 15. -/
theorem report_ordered_witness :
    calc_time_checked 3 2
        [some (group.mk 3 4 0 (some 1) none), some (group.mk 2 0 1 (some 2) none),
          some (group.mk 1 0 1 none none), some (group.mk 3 1 1 none none)]
        [agent.mk 0 0 (some 0) (some 2), agent.mk 0 0 (some 3) (some 3)]
      = .ok (stats.mk 15 0 4 10, [none, none, none, none],
          [agent.mk 0 0 none (some 2), agent.mk 0 0 none (some 3)])
    ∧ ∃ r h1 agents1,
      calc_time_checked 3 2
          [some (group.mk 3 4 0 (some 1) none), some (group.mk 2 0 1 (some 2) none),
            some (group.mk 1 0 1 none none), some (group.mk 3 1 1 none none)]
          [agent.mk 0 0 (some 0) (some 2), agent.mk 0 0 (some 3) (some 3)]
        = .ok (r, h1, agents1)
      ∧ 0 ≤ r.avg_wait_time ∧ r.avg_wait_time ≤ r.max_wait_time
      ∧ r.max_wait_time ≤ r.total_time :=
  ⟨by decide,
    report_ordered 3
      [some (group.mk 3 4 0 (some 1) none), some (group.mk 2 0 1 (some 2) none),
        some (group.mk 1 0 1 none none), some (group.mk 3 1 1 none none)]
      [agent.mk 0 0 (some 0) (some 2), agent.mk 0 0 (some 3) (some 3)]
      [[(0, group.mk 3 4 0 (some 1) none), (1, group.mk 2 0 1 (some 2) none),
          (2, group.mk 1 0 1 none none)],
        [(3, group.mk 3 1 1 none none)]]
      (by decide) (by decide) (by decide) (by decide) (by decide) (by decide) (by decide)⟩

end Customs
